import Mathlib

/-!
Verification of the `aim.models` configuration loader and reference
resolver against its natural-language specification.

Python strings are modelled as `List Char` (a Python `str` is a sequence
of characters); Python `str.split`, `str.join`, `str.find`,
`str.startswith` are re-implemented faithfully below.  Fallible Python
code (code that can raise `IndexError` / `AttributeError`) is modelled
with `Option` / `Except`.
-/

namespace AimModels

abbrev PyStr := List Char

/-- Python `sep.join(parts)` for a single-character separator. -/
def pjoin (c : Char) : List PyStr → PyStr
  | [] => []
  | [s] => s
  | s :: rest => s ++ c :: pjoin c rest

/-- Python `s.split(c)` for a single-character separator: split at every
occurrence, keeping empty segments; always returns at least one segment. -/
def psplit (c : Char) : PyStr → List PyStr
  | [] => [[]]
  | x :: xs =>
    if x = c then [] :: psplit c xs
    else
      match psplit c xs with
      | s :: rest => (x :: s) :: rest
      | [] => [[x]]

/-- Python `s.split(' ', 2)`: at most two splits, the remainder is kept whole. -/
def psplitMax2 (c : Char) (s : PyStr) : List PyStr :=
  match psplit c s with
  | a :: b :: r :: rest => [a, b, pjoin c (r :: rest)]
  | l => l

/-- Python `s.find(pat)`: index of the first occurrence, `none` for `-1`. -/
def pfind (pat : PyStr) : PyStr → Option Nat
  | [] => if pat.isPrefixOf ([] : PyStr) then some 0 else none
  | x :: xs =>
    if pat.isPrefixOf (x :: xs) then some 0
    else (pfind pat xs).map (· + 1)

theorem psplit_ne_nil (c : Char) (s : PyStr) : psplit c s ≠ [] := by
  induction s with
  | nil => simp [psplit]
  | cons x xs ih =>
    simp only [psplit]
    split
    · simp
    · cases h : psplit c xs with
      | nil => simp
      | cons a l => simp

/-- Joining the segments of a split reproduces the original string. -/
theorem pjoin_psplit (c : Char) (s : PyStr) : pjoin c (psplit c s) = s := by
  induction s with
  | nil => simp [psplit, pjoin]
  | cons x xs ih =>
    simp only [psplit]
    split
    · rename_i hx
      cases h : psplit c xs with
      | nil => exact absurd h (psplit_ne_nil c xs)
      | cons a l =>
        rw [h] at ih
        simp [pjoin, hx, ← ih]
    · cases h : psplit c xs with
      | nil => exact absurd h (psplit_ne_nil c xs)
      | cons a l =>
        rw [h] at ih
        cases l with
        | nil => simp [pjoin] at ih ⊢; simp [ih]
        | cons b m => simp [pjoin] at ih ⊢; simp [ih]

/-- No segment produced by a split contains the separator. -/
theorem psplit_not_mem (c : Char) (s : PyStr) :
    ∀ p ∈ psplit c s, c ∉ p := by
  induction s with
  | nil => intro p hp; simp [psplit] at hp; simp [hp]
  | cons x xs ih =>
    intro p hp
    simp only [psplit] at hp
    split at hp
    · rcases List.mem_cons.mp hp with h | h
      · simp [h]
      · exact ih p h
    · rename_i hx
      cases h : psplit c xs with
      | nil => exact absurd h (psplit_ne_nil c xs)
      | cons a l =>
        rw [h] at hp
        rcases List.mem_cons.mp hp with h2 | h2
        · subst h2
          intro hc
          rcases List.mem_cons.mp hc with h3 | h3
          · exact hx h3.symm
          · exact ih a (h ▸ List.mem_cons_self a l) h3
        · exact ih p (h ▸ List.mem_cons_of_mem a h2)

/-- Splitting the join of separator-free nonempty segment list gives it back. -/
theorem psplit_pjoin (c : Char) (ps : List PyStr) (hne : ps ≠ [])
    (hfree : ∀ p ∈ ps, c ∉ p) : psplit c (pjoin c ps) = ps := by
  induction ps with
  | nil => exact absurd rfl hne
  | cons p rest ih =>
    cases rest with
    | nil =>
      simp only [pjoin]
      have hp : c ∉ p := hfree p (List.mem_cons_self p [])
      clear ih hne hfree
      induction p with
      | nil => simp [psplit]
      | cons x xs ihp =>
        have hx : x ≠ c := fun h => hp (h ▸ List.mem_cons_self x xs)
        have hxs : c ∉ xs := fun h => hp (List.mem_cons_of_mem x h)
        simp only [psplit, if_neg hx]
        rw [ihp hxs]
    | cons q rest2 =>
      have hp : c ∉ p := hfree p (List.mem_cons_self p _)
      have hrest : ∀ r ∈ q :: rest2, c ∉ r := fun r hr =>
        hfree r (List.mem_cons_of_mem p hr)
      have ihr := ih (by simp) hrest
      simp only [pjoin]
      clear ih hne hfree
      induction p with
      | nil => simp [psplit, ihr]
      | cons x xs ihp =>
        have hx : x ≠ c := fun h => hp (h ▸ List.mem_cons_self x xs)
        have hxs : c ∉ xs := fun h => hp (List.mem_cons_of_mem x h)
        simp only [List.cons_append, psplit, if_neg hx, List.append_eq]
        rw [ihp hxs]

theorem pfind_of_isPrefixOf (pat s : PyStr) (h : pat.isPrefixOf s = true) :
    pfind pat s = some 0 := by
  cases s with
  | nil => simp [pfind, h]
  | cons x xs => simp [pfind, h]

/-- If a string has no occurrence of the separator, splitting is trivial. -/
theorem psplit_of_not_mem (c : Char) (s : PyStr) (h : c ∉ s) :
    psplit c s = [s] := psplit_pjoin c [s] (by simp) (by simpa using h)

/-- Splitting an append whose left side is separator-free peels off the
left side as the first segment. -/
theorem psplit_append (c : Char) (a b : PyStr) (ha : c ∉ a) :
    psplit c (a ++ c :: b) = a :: psplit c b := by
  induction a with
  | nil => simp [psplit]
  | cons x xs ih =>
    have hx : x ≠ c := fun h => ha (h ▸ List.mem_cons_self x xs)
    have hxs : c ∉ xs := fun h => ha (List.mem_cons_of_mem x h)
    simp only [List.cons_append, psplit, if_neg hx, List.append_eq]
    rw [ih hxs]

/-! ### The reference grammar (src/aim/models/references.py)

`is_ref` and `Reference.__init__`, embedded over `PyStr`.  The keys of
`vocabulary.aws_regions` are copied from `vocabulary.py`. -/

/-- Keys of `vocabulary.aws_regions`, in source order. -/
def awsRegionNames : List PyStr :=
  ["us-east-2", "us-east-1", "us-west-1", "us-west-2", "us-gov-west-1",
   "us-gov-east-1", "ap-northeast-1", "ap-northeast-3", "ap-northeast-2",
   "ca-central-1", "cn-north-1", "cn-northwest-1", "eu-central-1",
   "eu-west-1", "eu-west-2", "eu-west-3", "eu-north-1", "ap-south-1",
   "sa-east-1", "me-south-1", "ap-southeast-1", "ap-southeast-2",
   "ap-east-1"].map String.data

/-- The `ref_types` list of `is_ref`, in source order. -/
def refTypes : List PyStr :=
  ["netenv", "resource", "accounts", "function", "service"].map String.data

/-- `is_ref(aim_ref)`: determines if the string value is an AIM Reference. -/
def is_ref (aim_ref : PyStr) : Bool :=
  if ("aim.ref ".data).isPrefixOf aim_ref = false then false
  else refTypes.any (fun t => ("aim.ref ".data ++ t ++ ['.']).isPrefixOf aim_ref)

/-- Parsed form of a reference string (class `Reference`).  `invalid`
records that the constructor printed the "Invalid AIM Reference"
warning (it does not raise). -/
structure Reference where
  raw : PyStr
  ref : PyStr
  parts : List PyStr
  type : PyStr
  region : Option PyStr
  invalid : Bool
  deriving Repr, DecidableEq

/-- `value.split(' ', 2)[1]`, `none` when the index raises `IndexError`. -/
def refPartOf (value : PyStr) : Option PyStr := (psplitMax2 ' ' value).get? 1

/-- `Reference.__init__(value)`.  Returns `none` when the constructor
raises `IndexError`: either `value.split(' ', 2)[1]` on a string without
a space, or `self.parts[3]` on a `netenv` reference with fewer than four
parts. -/
def mkReference (value : PyStr) : Option Reference :=
  match refPartOf value with
  | none => none
  | some ref =>
    let parts := psplit '.' ref
    let ty := parts.headD []
    if ty = "netenv".data then
      match parts.get? 3 with
      | none => none
      | some p3 =>
        some ⟨value, ref, parts, ty,
              if p3 ∈ awsRegionNames then some p3 else none,
              !is_ref value⟩
    else
      some ⟨value, ref, parts, ty, none, !is_ref value⟩

theorem refPartOf_sentinel (rest : PyStr) (hsp : (' ' : Char) ∉ rest) :
    refPartOf ("aim.ref ".data ++ rest) = some rest := by
  have h1 : "aim.ref ".data ++ rest = "aim.ref".data ++ ' ' :: rest := by
    have : "aim.ref ".data = "aim.ref".data ++ [' '] := rfl
    rw [this, List.append_assoc]; rfl
  have h2 : psplit ' ' ("aim.ref ".data ++ rest) = ["aim.ref".data, rest] := by
    rw [h1, psplit_append ' ' _ _ (by decide), psplit_of_not_mem ' ' rest hsp]
  unfold refPartOf psplitMax2
  rw [h2]
  rfl

theorem mkReference_of_refPart (s ref : PyStr) (h : refPartOf s = some ref)
    (hn : (psplit '.' ref).headD [] = "netenv".data →
      4 ≤ (psplit '.' ref).length) :
    mkReference s =
      some ⟨s, ref, psplit '.' ref, (psplit '.' ref).headD [],
        (if (psplit '.' ref).headD [] = "netenv".data then
          (psplit '.' ref).get? 3 |>.bind
            (fun p3 => if p3 ∈ awsRegionNames then some p3 else none)
         else none),
        !is_ref s⟩ := by
  unfold mkReference
  rw [h]
  dsimp only
  by_cases hty : (psplit '.' ref).headD [] = "netenv".data
  · have hlen : 3 < (psplit '.' ref).length := by
      have := hn hty; omega
    obtain ⟨v, hv⟩ : ∃ v, (psplit '.' ref).get? 3 = some v := by
      cases h3 : (psplit '.' ref).get? 3 with
      | none => exact absurd (List.get?_eq_none.mp h3) (by omega)
      | some v => exact ⟨v, rfl⟩
    rw [if_pos hty, if_pos hty, hv]
    rfl
  · rw [if_neg hty, if_neg hty]

/-- C7: the claim quantifies over every `Reference` produced by the
constructor; the constructor never rejects its input, so it also
produces `Reference` objects whose raw text fails `is_ref`.  Concretely,
`Reference("xx yy.z")` completes although `is_ref("xx yy.z")` is false. -/
theorem C7_counterexample :
    (mkReference ("xx yy.z".data)).isSome = true ∧
    is_ref ("xx yy.z".data) = false := by decide

/-- C7 (amended): for every raw string made of the sentinel `"aim.ref "`
followed by a space-free tail that `is_ref` accepts (with at least four
parts when the namespace is `netenv`, otherwise the constructor raises
`IndexError`), construction succeeds, the constructed reference keeps
the raw text (so `is_ref` still accepts it, and no invalid-reference
warning is reported), its `ref` is exactly the portion of the raw text
after the sentinel, and joining its `parts` with `'.'` reproduces `ref`. -/
theorem C7_reference_roundtrip (rest : PyStr)
    (hsp : (' ' : Char) ∉ rest)
    (href : is_ref ("aim.ref ".data ++ rest) = true)
    (hlen : (psplit '.' rest).headD [] = "netenv".data →
      4 ≤ (psplit '.' rest).length) :
    ((mkReference ("aim.ref ".data ++ rest)).map Reference.raw =
        some ("aim.ref ".data ++ rest)) ∧
    ((mkReference ("aim.ref ".data ++ rest)).map
        (fun R => is_ref R.raw) = some true) ∧
    ((mkReference ("aim.ref ".data ++ rest)).map Reference.invalid =
        some false) ∧
    ((mkReference ("aim.ref ".data ++ rest)).map Reference.ref =
        some rest) ∧
    ((mkReference ("aim.ref ".data ++ rest)).map
        (fun R => pjoin '.' R.parts) = some rest) := by
  have h := mkReference_of_refPart _ rest (refPartOf_sentinel rest hsp) hlen
  rw [h]
  refine ⟨rfl, ?_, ?_, rfl, ?_⟩
  · simp only [Option.map_some']
    rw [href]
  · simp only [Option.map_some']
    rw [href]
    rfl
  · simp only [Option.map_some']
    rw [pjoin_psplit]

/-- C7 witness: the specification's own scenario,
`"aim.ref resource.s3.buckets.logs.name"`. -/
theorem C7_roundtrip_witness :
    ((mkReference ("aim.ref ".data ++ "resource.s3.buckets.logs.name".data)).map
        Reference.ref = some ("resource.s3.buckets.logs.name".data)) ∧
    ((mkReference ("aim.ref ".data ++ "resource.s3.buckets.logs.name".data)).map
        (fun R => pjoin '.' R.parts) =
        some ("resource.s3.buckets.logs.name".data)) := by
  have h := C7_reference_roundtrip ("resource.s3.buckets.logs.name".data)
    (by decide) (by decide) (by decide)
  exact ⟨h.2.2.2.1, h.2.2.2.2⟩

/-- C8: the claim says construction completes for every malformed text;
but a structurally-too-short `netenv` reference aborts construction
with an `IndexError` on `self.parts[3]` (and, being accepted by
`is_ref`, it is not even reported as invalid). -/
theorem C8_counterexample :
    mkReference ("aim.ref netenv.a".data) = none ∧
    is_ref ("aim.ref netenv.a".data) = true := by decide

/-- C8 (amended): for raw text containing a space, construction
completes whenever the first path part is not `netenv` or there are at
least four parts; the invalid-reference condition is reported (a
warning, not an abort) exactly when `is_ref` rejects the text — in
particular for an unrecognized namespace token.  A `netenv`-typed
reference with fewer than four parts, or text without any space, aborts
with an `IndexError` instead. -/
theorem C8_malformed_reference_tolerated :
    (∀ s ref, refPartOf s = some ref →
      ((psplit '.' ref).headD [] = "netenv".data →
        4 ≤ (psplit '.' ref).length) →
      (mkReference s).isSome = true ∧
      (mkReference s).map Reference.invalid = some (!is_ref s) ∧
      (mkReference s).map Reference.raw = some s) ∧
    (∀ s, refPartOf s = none → mkReference s = none) ∧
    (∀ s ref, refPartOf s = some ref →
      (psplit '.' ref).headD [] = "netenv".data →
      (psplit '.' ref).length < 4 → mkReference s = none) := by
  refine ⟨?_, ?_, ?_⟩
  · intro s ref h hn
    rw [mkReference_of_refPart s ref h hn]
    simp
  · intro s h
    unfold mkReference
    rw [h]
  · intro s ref h hty hlen
    unfold mkReference
    rw [h]
    dsimp only
    have h3 : (psplit '.' ref).get? 3 = none := List.get?_eq_none.mpr (by omega)
    rw [if_pos hty, h3]

/-- C8 witness: `"aim.ref bogus.x"` has an unrecognized namespace token;
construction completes with the invalid condition reported (`is_ref` is
false), and the short-`netenv` / no-space branches abort as amended. -/
theorem C8_malformed_witness :
    (mkReference ("aim.ref bogus.x".data)).isSome = true ∧
    (mkReference ("aim.ref bogus.x".data)).map Reference.invalid =
      some (!is_ref ("aim.ref bogus.x".data)) ∧
    mkReference ("nospace".data) = none ∧
    mkReference ("aim.ref netenv.a.b".data) = none := by
  refine ⟨?_, ?_, ?_, ?_⟩
  · exact (C8_malformed_reference_tolerated.1 _ ("bogus.x".data)
      (by decide) (by decide)).1
  · exact (C8_malformed_reference_tolerated.1 _ ("bogus.x".data)
      (by decide) (by decide)).2.1
  · exact C8_malformed_reference_tolerated.2.1 _ (by decide)
  · exact C8_malformed_reference_tolerated.2.2 _ ("netenv.a.b".data)
      (by decide) (by decide) (by decide)

/-! ### Environment/region specialization (ModelLoader.insert_env_ref_str) -/

theorem mem_of_mem_pjoin (c : Char) (ps : List PyStr) (a : Char)
    (h : a ∈ pjoin c ps) : a = c ∨ ∃ p ∈ ps, a ∈ p := by
  induction ps with
  | nil => simp [pjoin] at h
  | cons p rest ih =>
    cases rest with
    | nil => exact Or.inr ⟨p, by simp, by simpa [pjoin] using h⟩
    | cons q rest2 =>
      simp only [pjoin] at h
      rcases List.mem_append.mp h with h1 | h1
      · exact Or.inr ⟨p, by simp, h1⟩
      · rcases List.mem_cons.mp h1 with h2 | h2
        · exact Or.inl h2
        · rcases ih h2 with h3 | ⟨p2, hp2, ha⟩
          · exact Or.inl h3
          · exact Or.inr ⟨p2, List.mem_cons_of_mem p hp2, ha⟩

theorem not_mem_pjoin (c a : Char) (ps : List PyStr) (hac : a ≠ c)
    (h : ∀ p ∈ ps, a ∉ p) : a ∉ pjoin c ps := fun hmem => by
  rcases mem_of_mem_pjoin c ps a hmem with h1 | ⟨p, hp, ha⟩
  · exact hac h1
  · exact h p hp ha

theorem mem_pjoin_of_mem (c : Char) (ps : List PyStr) (p : PyStr) (a : Char)
    (hp : p ∈ ps) (ha : a ∈ p) : a ∈ pjoin c ps := by
  induction ps with
  | nil => simp at hp
  | cons q rest ih =>
    cases rest with
    | nil =>
      simp at hp
      subst hp
      simpa [pjoin] using ha
    | cons r rest2 =>
      simp only [pjoin]
      rcases List.mem_cons.mp hp with h1 | h1
      · subst h1
        exact List.mem_append.mpr (Or.inl ha)
      · exact List.mem_append.mpr
          (Or.inr (List.mem_cons_of_mem c (ih h1)))

/-- Characters of a split segment come from the original string. -/
theorem not_mem_of_psplit (c a : Char) (s p : PyStr) (hp : p ∈ psplit c s)
    (ha : a ∉ s) : a ∉ p := fun hmem =>
  ha (by rw [← pjoin_psplit c s]; exact mem_pjoin_of_mem c _ p a hp hmem)

theorem isPrefixOf_append_self (a b : PyStr) : a.isPrefixOf (a ++ b) = true := by
  induction a with
  | nil => simp [List.isPrefixOf]
  | cons x xs ih => simp [List.isPrefixOf, ih]

theorem notAimSub (rest : PyStr) :
    ("aim.sub ".data).isPrefixOf ("aim.ref ".data ++ rest) = false := by
  show List.isPrefixOf ('a' :: 'i' :: 'm' :: '.' :: 's' :: 'u' :: 'b' :: ' ' :: [])
    ('a' :: 'i' :: 'm' :: '.' :: 'r' :: 'e' :: 'f' :: ' ' :: rest) = false
  simp [List.isPrefixOf]

/-- `ModelLoader.insert_env_ref_str(str_value, env_id, region)`
(src/aim/models/loader.py).  The `aim.sub` branch delegates to
`insert_env_ref_aim_sub`; that collaborator is taken as the parameter
`aimSub` (no input considered by the claims reaches it).  `none` models
an uncaught exception from `Reference()` construction.
`netenv_ref = netenv_ref_raw[0:len(netenv_ref_raw)]` is the whole
string, so it is not modelled separately.  `ref.parts[2]`/`ref.parts[3]`
in the comparison cannot raise: the conjunction is only evaluated past
`ref.type == 'netenv'`, and constructing a netenv reference already
required four parts, so `getD` is exact there. -/
def insert_env_ref_str (aimSub : PyStr → PyStr → PyStr → Option PyStr)
    (str_value env_id region : PyStr) : Option PyStr :=
  match pfind ("aim.ref netenv.".data) str_value with
  | none => some str_value
  | some _ =>
    if ("aim.sub ".data).isPrefixOf str_value then
      aimSub str_value env_id region
    else
      match mkReference str_value with
      | none => none
      | some ref =>
        if ref.type = "netenv".data ∧ ref.parts.getD 2 [] = env_id ∧
            ref.parts.getD 3 [] = region then
          some str_value
        else
          some ("aim.ref".data ++ ' ' ::
            pjoin '.' ((ref.parts.insertIdx 2 env_id).insertIdx 3 region))

/-- C10: the claim fails twice.  (a) `"aim.ref netenv.a.b"` starts with
`"aim.ref netenv."` but `Reference()` raises `IndexError` on
`parts[3]`, so the claimed equation has no value at all.  (b) an
environment name containing `'.'` shifts the part indices when the
produced string is re-parsed, so a second application inserts again and
yields a different string. -/
theorem C10_counterexample :
    insert_env_ref_str (fun _ _ _ => none) ("aim.ref netenv.a.b".data)
      ("e".data) ("r".data) = none ∧
    insert_env_ref_str (fun _ _ _ => none) ("aim.ref netenv.n.a.b".data)
      ("x.y".data) ("r".data) =
      some ("aim.ref netenv.n.x.y.r.a.b".data) ∧
    insert_env_ref_str (fun _ _ _ => none)
      ("aim.ref netenv.n.x.y.r.a.b".data) ("x.y".data) ("r".data) =
      some ("aim.ref netenv.n.x.y.r.x.y.r.a.b".data) ∧
    ("aim.ref netenv.n.x.y.r.x.y.r.a.b".data ≠
      "aim.ref netenv.n.x.y.r.a.b".data) := by
  refine ⟨?_, ?_, ?_, by decide⟩ <;> rfl

/-- Unfolding of `insert_env_ref_str` on strings that start with
`"aim.ref netenv."`: the substring is found at index 0 and the
`aim.sub` branch is not taken. -/
theorem insert_env_unfold (aimSub : PyStr → PyStr → PyStr → Option PyStr)
    (e r w : PyStr) :
    insert_env_ref_str aimSub ("aim.ref netenv.".data ++ w) e r =
      (match mkReference ("aim.ref netenv.".data ++ w) with
       | none => none
       | some ref =>
         if ref.type = "netenv".data ∧ ref.parts.getD 2 [] = e ∧
             ref.parts.getD 3 [] = r then
           some ("aim.ref netenv.".data ++ w)
         else
           some ("aim.ref".data ++ ' ' ::
             pjoin '.' ((ref.parts.insertIdx 2 e).insertIdx 3 r))) := by
  have h2 : ("aim.ref netenv.".data ++ w : PyStr) =
      "aim.ref ".data ++ ("netenv.".data ++ w) := by
    rw [show ("aim.ref netenv.".data : PyStr) =
      "aim.ref ".data ++ "netenv.".data from rfl, List.append_assoc]
  have h3 : ("aim.sub ".data).isPrefixOf ("aim.ref netenv.".data ++ w) = false := by
    rw [h2]; exact notAimSub _
  unfold insert_env_ref_str
  rw [pfind_of_isPrefixOf _ _ (isPrefixOf_append_self _ w)]
  dsimp only
  rw [h3]
  simp only [Bool.false_eq_true, if_false]

/-- C10 (amended): restricted to strings `"aim.ref netenv." ++ u` where
the tail `u` is space-free and has at least three further `'.'`-parts
(shorter references abort with `IndexError` on `Reference`
construction), and to environment names and regions containing neither
`'.'` nor `' '` (a `'.'` shifts the part indices on re-parse and breaks
idempotence), the specialization is idempotent: the first application
succeeds, applying the function to its own output returns that output
unchanged, and a reference already carrying the environment at part 2
and the region at part 3 is returned unchanged. -/
theorem C10_insert_env_ref_idempotent
    (aimSub : PyStr → PyStr → PyStr → Option PyStr) (u e r : PyStr)
    (hu : (' ' : Char) ∉ u)
    (hlen : 3 ≤ (psplit '.' u).length)
    (he1 : ('.' : Char) ∉ e) (he2 : (' ' : Char) ∉ e)
    (hr1 : ('.' : Char) ∉ r) (hr2 : (' ' : Char) ∉ r) :
    (insert_env_ref_str aimSub ("aim.ref netenv.".data ++ u) e r).isSome
      = true ∧
    (insert_env_ref_str aimSub ("aim.ref netenv.".data ++ u) e r).bind
      (fun t => insert_env_ref_str aimSub t e r) =
      insert_env_ref_str aimSub ("aim.ref netenv.".data ++ u) e r ∧
    ((psplit '.' u).getD 1 [] = e → (psplit '.' u).getD 2 [] = r →
      insert_env_ref_str aimSub ("aim.ref netenv.".data ++ u) e r =
        some ("aim.ref netenv.".data ++ u)) := by
  obtain ⟨p1, p2, p3, tail, hps⟩ :
      ∃ p1 p2 p3 tail, psplit '.' u = p1 :: p2 :: p3 :: tail := by
    cases h1 : psplit '.' u with
    | nil => exact absurd h1 (psplit_ne_nil '.' u)
    | cons a t1 =>
      cases t1 with
      | nil => rw [h1] at hlen; simp at hlen
      | cons b t2 =>
        cases t2 with
        | nil => rw [h1] at hlen; simp at hlen
        | cons c t3 => exact ⟨a, b, c, t3, rfl⟩
  -- the string decomposes after the sentinel
  have hdecomp : ("aim.ref netenv.".data ++ u : PyStr) =
      "aim.ref ".data ++ ("netenv".data ++ '.' :: u) := by
    rw [show ("aim.ref netenv.".data : PyStr) =
      "aim.ref ".data ++ "netenv".data ++ ['.'] from rfl,
      List.append_assoc, List.append_assoc]
    rfl
  have hsp_rest : (' ' : Char) ∉ ("netenv".data ++ '.' :: u) := by
    intro h
    rcases List.mem_append.mp h with h1 | h1
    · exact absurd h1 (by decide)
    · rcases List.mem_cons.mp h1 with h2 | h2
      · exact absurd h2 (by decide)
      · exact hu h2
  have hparts : psplit '.' ("netenv".data ++ '.' :: u) =
      "netenv".data :: p1 :: p2 :: p3 :: tail := by
    rw [psplit_append '.' _ u (by decide), hps]
  have hrefpart : refPartOf ("aim.ref netenv.".data ++ u) =
      some ("netenv".data ++ '.' :: u) := by
    rw [hdecomp]; exact refPartOf_sentinel _ hsp_rest
  have hmkS := mkReference_of_refPart _ _ hrefpart
    (by rw [hparts]; intro _; simp)
  rw [hparts] at hmkS
  -- characters of the parts of u
  have hufree : ∀ p ∈ psplit '.' u, (' ' : Char) ∉ p := fun p hp =>
    not_mem_of_psplit '.' ' ' u p hp hu
  have hudot : ∀ p ∈ psplit '.' u, ('.' : Char) ∉ p := psplit_not_mem '.' u
  by_cases hc : p2 = e ∧ p3 = r
  · -- parts 2 and 3 already hold the environment and region
    have hfs : insert_env_ref_str aimSub ("aim.ref netenv.".data ++ u) e r =
        some ("aim.ref netenv.".data ++ u) := by
      rw [insert_env_unfold, hmkS]
      dsimp only
      rw [if_pos ⟨rfl, hc.1, hc.2⟩]
    refine ⟨by rw [hfs]; rfl, by rw [hfs]; exact hfs, fun _ _ => hfs⟩
  · -- the environment and region are inserted; a second pass is a no-op
    have hfs : insert_env_ref_str aimSub ("aim.ref netenv.".data ++ u) e r =
        some ("aim.ref".data ++ ' ' ::
          pjoin '.' ("netenv".data :: p1 :: e :: r :: p2 :: p3 :: tail)) := by
      rw [insert_env_unfold, hmkS]
      dsimp only
      rw [if_neg (by intro h; exact hc ⟨h.2.1, h.2.2⟩)]
      rw [show (("netenv".data :: p1 :: p2 :: p3 :: tail).insertIdx 2 e).insertIdx
          3 r = "netenv".data :: p1 :: e :: r :: p2 :: p3 :: tail by
        simp [List.insertIdx_succ_cons, List.insertIdx_zero]]
    -- the produced string, rewritten in sentinel-plus-tail form
    have hT : ("aim.ref".data ++ ' ' ::
        pjoin '.' ("netenv".data :: p1 :: e :: r :: p2 :: p3 :: tail) : PyStr) =
        "aim.ref netenv.".data ++ pjoin '.' (p1 :: e :: r :: p2 :: p3 :: tail) := by
      rw [show pjoin '.' ("netenv".data :: p1 :: e :: r :: p2 :: p3 :: tail) =
        "netenv".data ++ '.' :: pjoin '.' (p1 :: e :: r :: p2 :: p3 :: tail)
        from rfl]
      rfl
    have hfree2 : ∀ q ∈ ("netenv".data :: p1 :: e :: r :: p2 :: p3 :: tail),
        (' ' : Char) ∉ q := by
      intro q hq
      rcases List.mem_cons.mp hq with h1 | h1
      · rw [h1]; decide
      rcases List.mem_cons.mp h1 with h2 | h2
      · rw [h2]; exact hufree p1 (by rw [hps]; simp)
      rcases List.mem_cons.mp h2 with h3 | h3
      · rw [h3]; exact he2
      rcases List.mem_cons.mp h3 with h4 | h4
      · rw [h4]; exact hr2
      rcases List.mem_cons.mp h4 with h5 | h5
      · rw [h5]; exact hufree p2 (by rw [hps]; simp)
      rcases List.mem_cons.mp h5 with h6 | h6
      · rw [h6]; exact hufree p3 (by rw [hps]; simp)
      · exact hufree q (by rw [hps]; simp [h6])
    have hdot2 : ∀ q ∈ ("netenv".data :: p1 :: e :: r :: p2 :: p3 :: tail),
        ('.' : Char) ∉ q := by
      intro q hq
      rcases List.mem_cons.mp hq with h1 | h1
      · rw [h1]; decide
      rcases List.mem_cons.mp h1 with h2 | h2
      · rw [h2]; exact hudot p1 (by rw [hps]; simp)
      rcases List.mem_cons.mp h2 with h3 | h3
      · rw [h3]; exact he1
      rcases List.mem_cons.mp h3 with h4 | h4
      · rw [h4]; exact hr1
      rcases List.mem_cons.mp h4 with h5 | h5
      · rw [h5]; exact hudot p2 (by rw [hps]; simp)
      rcases List.mem_cons.mp h5 with h6 | h6
      · rw [h6]; exact hudot p3 (by rw [hps]; simp)
      · exact hudot q (by rw [hps]; simp [h6])
    have hsp2 : (' ' : Char) ∉
        pjoin '.' ("netenv".data :: p1 :: e :: r :: p2 :: p3 :: tail) :=
      not_mem_pjoin '.' ' ' _ (by decide) hfree2
    have hsplit2 : psplit '.'
        (pjoin '.' ("netenv".data :: p1 :: e :: r :: p2 :: p3 :: tail)) =
        "netenv".data :: p1 :: e :: r :: p2 :: p3 :: tail :=
      psplit_pjoin '.' _ (by simp) hdot2
    have hrefpart2 : refPartOf ("aim.ref netenv.".data ++
        pjoin '.' (p1 :: e :: r :: p2 :: p3 :: tail)) =
        some (pjoin '.' ("netenv".data :: p1 :: e :: r :: p2 :: p3 :: tail)) := by
      have hd2 : ("aim.ref netenv.".data ++
          pjoin '.' (p1 :: e :: r :: p2 :: p3 :: tail) : PyStr) =
          "aim.ref ".data ++
            pjoin '.' ("netenv".data :: p1 :: e :: r :: p2 :: p3 :: tail) := by
        rw [show pjoin '.' ("netenv".data :: p1 :: e :: r :: p2 :: p3 :: tail) =
          "netenv".data ++ '.' :: pjoin '.' (p1 :: e :: r :: p2 :: p3 :: tail)
          from rfl]
        rfl
      rw [hd2]
      exact refPartOf_sentinel _ hsp2
    have hmkT := mkReference_of_refPart _ _ hrefpart2
      (by rw [hsplit2]; intro _; simp)
    rw [hsplit2] at hmkT
    have hft : insert_env_ref_str aimSub ("aim.ref netenv.".data ++
        pjoin '.' (p1 :: e :: r :: p2 :: p3 :: tail)) e r =
        some ("aim.ref netenv.".data ++
          pjoin '.' (p1 :: e :: r :: p2 :: p3 :: tail)) := by
      rw [insert_env_unfold, hmkT]
      dsimp only
      rw [if_pos ⟨rfl, rfl, rfl⟩]
    refine ⟨by rw [hfs]; rfl, ?_, ?_⟩
    · rw [hfs]
      show insert_env_ref_str aimSub _ e r = _
      rw [hT, hft]
    · intro h1 h2
      rw [hps] at h1 h2
      exact absurd ⟨h1, h2⟩ hc

/-- C10 witness: a reference already carrying the environment and the
region is returned unchanged, and the specialization is idempotent on it. -/
theorem C10_idempotent_witness :
    insert_env_ref_str (fun _ _ _ => none)
      ("aim.ref netenv.".data ++ "demo.dev.us-west-2".data)
      ("dev".data) ("us-west-2".data) =
      some ("aim.ref netenv.".data ++ "demo.dev.us-west-2".data) ∧
    (insert_env_ref_str (fun _ _ _ => none)
      ("aim.ref netenv.".data ++ "demo.dev.us-west-2".data)
      ("dev".data) ("us-west-2".data)).bind
      (fun t => insert_env_ref_str (fun _ _ _ => none) t
        ("dev".data) ("us-west-2".data)) =
      insert_env_ref_str (fun _ _ _ => none)
        ("aim.ref netenv.".data ++ "demo.dev.us-west-2".data)
        ("dev".data) ("us-west-2".data) := by
  have h := C10_insert_env_ref_idempotent (fun _ _ _ => none)
    ("demo.dev.us-west-2".data) ("dev".data) ("us-west-2".data)
    (by decide) (by decide) (by decide) (by decide) (by decide) (by decide)
  exact ⟨h.2.2 (by decide) (by decide), h.2.1⟩

/-! ### The deep-merge engine (`merge` in src/aim/models/loader.py) -/

/-- A Python value as consumed by `merge`: `vnone` is Python `None` (the
absent marker), dicts are insertion-ordered association lists, as Python
dicts are.  `copy.deepcopy` is the identity on pure values, so it does
not appear in the value-level embedding (the heap-level embedding for
the frame claim models it separately). -/
inductive Value where
  | vnone : Value
  | vint : Int → Value
  | vstr : String → Value
  | vbool : Bool → Value
  | vlist : List Value → Value
  | vdict : List (String × Value) → Value

/-- `base.get(k, None)`: the value bound to `k`, `None` when absent. -/
def dictGet (d : List (String × Value)) (k : String) : Value :=
  match d with
  | [] => Value.vnone
  | (k', v) :: rest => if k' = k then v else dictGet rest k

/-- `k in d.keys()`. -/
def hasKey (d : List (String × Value)) (k : String) : Bool :=
  d.any (fun p => p.1 = k)

/-- One binding step of Python `dict.update`: an existing key is
overwritten in place (its position kept), a new key is appended. -/
def dictSet (d : List (String × Value)) (k : String) (v : Value) :
    List (String × Value) :=
  if hasKey d k then d.map (fun p => if p.1 = k then (k, v) else p)
  else d ++ [(k, v)]

/-- `new_dict.update(upd)` applied binding by binding. -/
def dictUpdate (d upd : List (String × Value)) : List (String × Value) :=
  upd.foldl (fun acc p => dictSet acc p.1 p.2) d

theorem dictGet_sizeOf_le (d : List (String × Value)) (k : String) :
    sizeOf (dictGet d k) ≤ sizeOf d := by
  induction d with
  | nil => simp [dictGet]
  | cons p rest ih =>
    obtain ⟨k', v⟩ := p
    simp only [dictGet]
    split
    · simp
      omega
    · simp
      omega

mutual
/-- `merge(base, override)`: merge two dictionaries of arbitrary depth.
The dict arm is `new_dict = dict(base)` followed by
`new_dict.update({k: merge(base.get(k, None), override[k]) for k in
override})`; the list arm is
`[merge(x, y) for x, y in itertools.zip_longest(base, override)]`; the
final arm is `copy.deepcopy(base) if override is None else
copy.deepcopy(override)`. -/
def merge : Value → Value → Value
  | Value.vdict b, Value.vdict o => Value.vdict (dictUpdate b (mergePairs b o))
  | Value.vlist b, Value.vlist o => Value.vlist (mergeZip b o)
  | b, o => match o with
    | Value.vnone => b
    | _ => o
termination_by b o => sizeOf b + sizeOf o
decreasing_by
  all_goals simp_wf
  all_goals omega

/-- The dict comprehension of `merge`, bindings in `override` order. -/
def mergePairs (b : List (String × Value)) :
    List (String × Value) → List (String × Value)
  | [] => []
  | (k, v) :: rest => (k, merge (dictGet b k) v) :: mergePairs b rest
termination_by o => sizeOf b + sizeOf o
decreasing_by
  all_goals simp_wf
  have h := dictGet_sizeOf_le b k'
  omega

/-- `itertools.zip_longest` with `None` fill, merged pairwise. -/
def mergeZip : List Value → List Value → List Value
  | [], [] => []
  | x :: xs, [] => merge x Value.vnone :: mergeZip xs []
  | [], y :: ys => merge Value.vnone y :: mergeZip [] ys
  | x :: xs, y :: ys => merge x y :: mergeZip xs ys
termination_by b o => sizeOf b + sizeOf o
decreasing_by
  all_goals simp_wf
  all_goals omega
end

/-- No key occurs twice (every Python dict satisfies this). -/
def nodupKeys : List (String × Value) → Bool
  | [] => true
  | (k, _) :: rest => !(hasKey rest k) && nodupKeys rest

mutual
/-- Well-formed value: every dict at every depth has unique keys. -/
def wfValue : Value → Bool
  | Value.vdict d => nodupKeys d && wfEntries d
  | Value.vlist l => wfList l
  | _ => true

def wfList : List Value → Bool
  | [] => true
  | v :: rest => wfValue v && wfList rest

def wfEntries : List (String × Value) → Bool
  | [] => true
  | (_, v) :: rest => wfValue v && wfEntries rest
end

theorem hasKey_eq_false_iff (d : List (String × Value)) (k : String) :
    hasKey d k = false ↔ ∀ p ∈ d, p.1 ≠ k := by
  simp [hasKey, List.any_eq_false]

theorem hasKey_eq_true_iff (d : List (String × Value)) (k : String) :
    hasKey d k = true ↔ ∃ p ∈ d, p.1 = k := by
  simp [hasKey, List.any_eq_true]

theorem nodupKeys_cons_iff (k : String) (v : Value)
    (rest : List (String × Value)) :
    nodupKeys ((k, v) :: rest) = true ↔
      hasKey rest k = false ∧ nodupKeys rest = true := by
  simp [nodupKeys]

theorem dictGet_of_nodupKeys (d : List (String × Value)) (k : String)
    (v : Value) (hn : nodupKeys d = true) (hm : (k, v) ∈ d) :
    dictGet d k = v := by
  induction d with
  | nil => simp at hm
  | cons p rest ih =>
    obtain ⟨k0, v0⟩ := p
    have hn' := (nodupKeys_cons_iff k0 v0 rest).mp hn
    rcases List.mem_cons.mp hm with h | h
    · injection h with h1 h2
      subst h1
      subst h2
      simp [dictGet]
    · have hk : k0 ≠ k := by
        intro he
        subst he
        have : hasKey rest k0 = true :=
          (hasKey_eq_true_iff rest k0).mpr ⟨(k0, v), h, rfl⟩
        rw [this] at hn'
        simp at hn'
      simp only [dictGet, if_neg hk]
      exact ih hn'.2 h

theorem map_keyfix_of_no_key (d : List (String × Value)) (k : String)
    (v : Value) (h : hasKey d k = false) :
    d.map (fun p => if p.1 = k then (k, v) else p) = d := by
  induction d with
  | nil => rfl
  | cons p rest ih =>
    have h' := (hasKey_eq_false_iff _ k).mp h
    have hp : p.1 ≠ k := h' p (List.mem_cons_self p rest)
    have hrest : hasKey rest k = false := (hasKey_eq_false_iff _ k).mpr
      (fun q hq => h' q (List.mem_cons_of_mem p hq))
    simp [if_neg hp, ih hrest]

theorem dictSet_mem (d : List (String × Value)) (k : String) (v : Value)
    (hn : nodupKeys d = true) (hm : (k, v) ∈ d) : dictSet d k v = d := by
  have hk : hasKey d k = true := (hasKey_eq_true_iff d k).mpr ⟨(k, v), hm, rfl⟩
  rw [dictSet, if_pos hk]
  induction d with
  | nil => simp at hm
  | cons p rest ih =>
    obtain ⟨k0, v0⟩ := p
    have hn' := (nodupKeys_cons_iff k0 v0 rest).mp hn
    rcases List.mem_cons.mp hm with h | h
    · injection h with h1 h2
      subst h1
      subst h2
      simp [map_keyfix_of_no_key rest k v hn'.1]
    · have hk0 : k0 ≠ k := by
        intro he
        subst he
        have : hasKey rest k0 = true :=
          (hasKey_eq_true_iff rest k0).mpr ⟨(k0, v), h, rfl⟩
        rw [this] at hn'
        simp at hn'
      have hkrest : hasKey rest k = true :=
        (hasKey_eq_true_iff rest k).mpr ⟨(k, v), h, rfl⟩
      simp only [List.map_cons, if_neg hk0]
      rw [ih hn'.2 h hkrest]

theorem dictUpdate_sub_self (d upd : List (String × Value))
    (hn : nodupKeys d = true) (hsub : ∀ p ∈ upd, p ∈ d) :
    dictUpdate d upd = d := by
  induction upd with
  | nil => rfl
  | cons p rest ih =>
    obtain ⟨k, v⟩ := p
    have h1 : dictSet d k v = d :=
      dictSet_mem d k v hn (hsub _ (List.mem_cons_self _ _))
    show dictUpdate (dictSet d k v) rest = d
    rw [h1]
    exact ih (fun q hq => hsub q (List.mem_cons_of_mem _ hq))

theorem merge_self_aux :
    ∀ (n : Nat) (v : Value), sizeOf v ≤ n → wfValue v = true →
      merge v v = v := by
  intro n
  induction n with
  | zero =>
    intro v hv _
    exfalso
    cases v <;> simp at hv
  | succ n ih =>
    intro v hv hwf
    cases v with
    | vnone => simp [merge]
    | vint i => simp [merge]
    | vstr s => simp [merge]
    | vbool b => simp [merge]
    | vlist l =>
      have hzip : ∀ (xs : List Value), sizeOf xs ≤ n → wfList xs = true →
          mergeZip xs xs = xs := by
        intro xs
        induction xs with
        | nil => intro _ _; simp [mergeZip]
        | cons x l2 ihl =>
          intro hsz2 hwf2
          simp only [wfList, Bool.and_eq_true] at hwf2
          have hx : sizeOf x ≤ n := by simp at hsz2; omega
          have hl2 : sizeOf l2 ≤ n := by simp at hsz2; omega
          simp only [mergeZip]
          rw [ih x hx hwf2.1, ihl hl2 hwf2.2]
      have hl : wfList l = true := by simpa [wfValue] using hwf
      have hsz : sizeOf l ≤ n := by simp at hv; omega
      simp only [merge]
      rw [hzip l hsz hl]
    | vdict d =>
      have h1 : nodupKeys d = true ∧ wfEntries d = true := by
        simpa [wfValue, Bool.and_eq_true] using hwf
      have hsz : sizeOf d ≤ n := by simp at hv; omega
      have hpairs : ∀ (o : List (String × Value)), sizeOf o ≤ n →
          wfEntries o = true → (∀ p ∈ o, p ∈ d) → mergePairs d o = o := by
        intro o
        induction o with
        | nil => intro _ _ _; simp [mergePairs]
        | cons p rest iho =>
          obtain ⟨k, v⟩ := p
          intro hsz2 hwf2 hsub
          simp only [wfEntries, Bool.and_eq_true] at hwf2
          have hdg : dictGet d k = v :=
            dictGet_of_nodupKeys d k v h1.1 (hsub _ (List.mem_cons_self _ _))
          have hv2 : sizeOf v ≤ n := by simp at hsz2; omega
          have hrest : sizeOf rest ≤ n := by simp at hsz2; omega
          simp only [mergePairs]
          rw [hdg, ih v hv2 hwf2.1,
            iho hrest hwf2.2 (fun q hq => hsub q (List.mem_cons_of_mem _ hq))]
      simp only [merge]
      rw [hpairs d hsz h1.2 (fun p hp => hp),
        dictUpdate_sub_self d d h1.1 (fun p hp => hp)]

/-- `merge(A, A) == A` for every well-formed value. -/
theorem merge_self (v : Value) (h : wfValue v = true) : merge v v = v :=
  merge_self_aux (sizeOf v) v le_rfl h

theorem dictGet_map_set (d : List (String × Value)) (k : String) (v : Value)
    (h : hasKey d k = true) :
    dictGet (d.map (fun p => if p.1 = k then (k, v) else p)) k = v := by
  induction d with
  | nil => simp [hasKey] at h
  | cons p rest ih =>
    obtain ⟨k1, v1⟩ := p
    simp only [List.map_cons]
    by_cases hp : k1 = k
    · subst hp
      rw [show (if ((k1, v1) : String × Value).1 = k1 then (k1, v) else (k1, v1))
          = (k1, v) from if_pos rfl]
      simp [dictGet]
    · have h2 : hasKey rest k = true := by
        rcases (hasKey_eq_true_iff _ k).mp h with ⟨q, hq, hqk⟩
        rcases List.mem_cons.mp hq with h3 | h3
        · rw [h3] at hqk; exact absurd hqk hp
        · exact (hasKey_eq_true_iff _ k).mpr ⟨q, h3, hqk⟩
      rw [show (if ((k1, v1) : String × Value).1 = k then (k, v) else (k1, v1))
          = (k1, v1) from if_neg hp]
      simp only [dictGet]
      rw [if_neg hp]
      exact ih h2

theorem dictGet_append_set (d : List (String × Value)) (k : String) (v : Value)
    (h : hasKey d k = false) : dictGet (d ++ [(k, v)]) k = v := by
  induction d with
  | nil => simp [dictGet]
  | cons p rest ih =>
    have h' := (hasKey_eq_false_iff _ k).mp h
    have hp : p.1 ≠ k := h' p (List.mem_cons_self p rest)
    have hrest : hasKey rest k = false := (hasKey_eq_false_iff _ k).mpr
      (fun q hq => h' q (List.mem_cons_of_mem p hq))
    simp only [List.cons_append, dictGet, if_neg hp]
    exact ih hrest

theorem dictGet_dictSet_self (d : List (String × Value)) (k : String)
    (v : Value) : dictGet (dictSet d k v) k = v := by
  unfold dictSet
  by_cases h : hasKey d k = true
  · rw [if_pos h]; exact dictGet_map_set d k v h
  · rw [if_neg h]
    exact dictGet_append_set d k v (by simpa using h)

theorem dictGet_map_set_ne (d : List (String × Value)) (k k' : String)
    (v : Value) (hne : k' ≠ k) :
    dictGet (d.map (fun p => if p.1 = k' then (k', v) else p)) k =
      dictGet d k := by
  induction d with
  | nil => rfl
  | cons p rest ih =>
    obtain ⟨k1, v1⟩ := p
    simp only [List.map_cons]
    by_cases hp : k1 = k'
    · subst hp
      rw [show (if ((k1, v1) : String × Value).1 = k1 then (k1, v) else (k1, v1))
          = (k1, v) from if_pos rfl]
      simp only [dictGet]
      rw [if_neg hne, if_neg hne]
      exact ih
    · rw [show (if ((k1, v1) : String × Value).1 = k' then (k', v) else (k1, v1))
          = (k1, v1) from if_neg hp]
      simp only [dictGet]
      by_cases hk : k1 = k
      · rw [if_pos hk, if_pos hk]
      · rw [if_neg hk, if_neg hk]
        exact ih

theorem dictGet_append_ne (d : List (String × Value)) (k k' : String)
    (v : Value) (hne : k' ≠ k) :
    dictGet (d ++ [(k', v)]) k = dictGet d k := by
  induction d with
  | nil => simp [dictGet, if_neg hne]
  | cons p rest ih =>
    obtain ⟨k1, v1⟩ := p
    by_cases hk : k1 = k
    · simp [dictGet, hk]
    · simp only [List.cons_append, dictGet, if_neg hk]
      exact ih

theorem dictGet_dictSet_ne (d : List (String × Value)) (k k' : String)
    (v : Value) (hne : k' ≠ k) :
    dictGet (dictSet d k' v) k = dictGet d k := by
  unfold dictSet
  split
  · exact dictGet_map_set_ne d k k' v hne
  · exact dictGet_append_ne d k k' v hne

theorem dictUpdate_get_notin (upd : List (String × Value))
    (d : List (String × Value)) (k : String) (h : hasKey upd k = false) :
    dictGet (dictUpdate d upd) k = dictGet d k := by
  induction upd generalizing d with
  | nil => rfl
  | cons p rest ih =>
    have h' := (hasKey_eq_false_iff _ k).mp h
    have hp : p.1 ≠ k := h' p (List.mem_cons_self p rest)
    have hrest : hasKey rest k = false := (hasKey_eq_false_iff _ k).mpr
      (fun q hq => h' q (List.mem_cons_of_mem p hq))
    show dictGet (dictUpdate (dictSet d p.1 p.2) rest) k = dictGet d k
    rw [ih _ hrest, dictGet_dictSet_ne d k p.1 p.2 hp]

theorem dictUpdate_get_in (upd : List (String × Value))
    (d : List (String × Value)) (k : String)
    (hnd : nodupKeys upd = true) (h : hasKey upd k = true) :
    dictGet (dictUpdate d upd) k = dictGet upd k := by
  induction upd generalizing d with
  | nil => simp [hasKey] at h
  | cons p rest ih =>
    obtain ⟨k0, v0⟩ := p
    have hnd' := (nodupKeys_cons_iff k0 v0 rest).mp hnd
    show dictGet (dictUpdate (dictSet d k0 v0) rest) k =
      dictGet ((k0, v0) :: rest) k
    by_cases hk : k0 = k
    · subst hk
      rw [dictUpdate_get_notin rest _ _ hnd'.1, dictGet_dictSet_self]
      simp [dictGet]
    · have h2 : hasKey rest k = true := by
        rcases (hasKey_eq_true_iff _ k).mp h with ⟨q, hq, hqk⟩
        rcases List.mem_cons.mp hq with h3 | h3
        · subst h3; exact absurd hqk hk
        · exact (hasKey_eq_true_iff _ k).mpr ⟨q, h3, hqk⟩
      rw [ih _ hnd'.2 h2]
      simp [dictGet, hk]

theorem hasKey_mergePairs (b o : List (String × Value)) (k : String) :
    hasKey (mergePairs b o) k = hasKey o k := by
  induction o with
  | nil => simp [mergePairs]
  | cons p rest ih =>
    obtain ⟨k0, v0⟩ := p
    simp only [mergePairs, hasKey, List.any_cons] at ih ⊢
    rw [ih]

theorem nodupKeys_mergePairs (b o : List (String × Value))
    (h : nodupKeys o = true) : nodupKeys (mergePairs b o) = true := by
  induction o with
  | nil => simp [mergePairs, nodupKeys]
  | cons p rest ih =>
    obtain ⟨k0, v0⟩ := p
    have h' := (nodupKeys_cons_iff k0 v0 rest).mp h
    simp only [mergePairs]
    rw [nodupKeys_cons_iff]
    exact ⟨by rw [hasKey_mergePairs]; exact h'.1, ih h'.2⟩

theorem mergePairs_get (b o : List (String × Value)) (k : String)
    (h : hasKey o k = true) :
    dictGet (mergePairs b o) k = merge (dictGet b k) (dictGet o k) := by
  induction o with
  | nil => simp [hasKey] at h
  | cons p rest ih =>
    obtain ⟨k0, v0⟩ := p
    simp only [mergePairs, dictGet]
    by_cases hk : k0 = k
    · simp [hk]
    · have h2 : hasKey rest k = true := by
        rcases (hasKey_eq_true_iff _ k).mp h with ⟨q, hq, hqk⟩
        rcases List.mem_cons.mp hq with h3 | h3
        · subst h3; exact absurd hqk hk
        · exact (hasKey_eq_true_iff _ k).mpr ⟨q, h3, hqk⟩
      simp [if_neg hk, ih h2]

theorem mergeZip_getD (b : List Value) :
    ∀ (o : List Value) (i : Nat),
      (mergeZip b o).getD i Value.vnone =
        merge (b.getD i Value.vnone) (o.getD i Value.vnone) := by
  induction b with
  | nil =>
    intro o
    induction o with
    | nil => intro i; simp [mergeZip, merge]
    | cons y ys iho =>
      intro i
      cases i with
      | zero => simp [mergeZip]
      | succ j => simpa [mergeZip] using iho j
  | cons x xs ih =>
    intro o i
    cases o with
    | nil =>
      cases i with
      | zero => simp [mergeZip]
      | succ j => simpa [mergeZip] using ih [] j
    | cons y ys =>
      cases i with
      | zero => simp [mergeZip]
      | succ j => simpa [mergeZip] using ih ys j

theorem mergeZip_length (b : List Value) :
    ∀ o : List Value, (mergeZip b o).length = max b.length o.length := by
  induction b with
  | nil =>
    intro o
    induction o with
    | nil => simp [mergeZip]
    | cons y ys iho => simp [mergeZip, iho]
  | cons x xs ih =>
    intro o
    cases o with
    | nil =>
      have := ih []
      simp [mergeZip] at this ⊢
      omega
    | cons y ys =>
      have := ih ys
      simp [mergeZip] at this ⊢
      omega

/-- Keyed lookup through the `Value` wrapper (`None` on non-dicts). -/
def getKey : Value → String → Value
  | Value.vdict d, k => dictGet d k
  | _, _ => Value.vnone

def isDictV : Value → Bool
  | Value.vdict _ => true
  | _ => false

def isListV : Value → Bool
  | Value.vlist _ => true
  | _ => false

def listLen : Value → Nat
  | Value.vlist l => l.length
  | _ => 0

def listGetD : Value → Nat → Value
  | Value.vlist l, i => l.getD i Value.vnone
  | _, _ => Value.vnone

/-- C1: the algebra of `merge`.  In order: `merge(A, A) == A` on every
well-formed value (Python dicts always have unique keys, which
`wfValue` captures); `merge(A, {}) == A` for dicts; a key of `base`
absent from `override` keeps its `base` value; a key of `override` maps
to `merge(base.get(k), override[k])`; two sequences merge pairwise by
index, the shorter side padded with the absent marker `None` (the
result has the longer length, and index `i` holds the merge of the
padded elements); any other shape combination yields the override when
it is present and the base when the override is `None`; and the
specification's base/override scenario evaluates as stated. -/
theorem C1_merge_spec :
    (∀ v, wfValue v = true → merge v v = v) ∧
    (∀ b, merge (Value.vdict b) (Value.vdict []) = Value.vdict b) ∧
    (∀ b o k, hasKey o k = false →
      getKey (merge (Value.vdict b) (Value.vdict o)) k = dictGet b k) ∧
    (∀ b o k, nodupKeys o = true → hasKey o k = true →
      getKey (merge (Value.vdict b) (Value.vdict o)) k =
        merge (dictGet b k) (dictGet o k)) ∧
    (∀ b o, listLen (merge (Value.vlist b) (Value.vlist o)) =
      max b.length o.length) ∧
    (∀ b o i, listGetD (merge (Value.vlist b) (Value.vlist o)) i =
      merge (b.getD i Value.vnone) (o.getD i Value.vnone)) ∧
    (∀ b o, (isDictV b && isDictV o) = false →
      (isListV b && isListV o) = false →
      (o = Value.vnone → merge b o = b) ∧ (o ≠ Value.vnone → merge b o = o)) ∧
    (merge (Value.vdict [("a", Value.vint 1),
        ("b", Value.vdict [("x", Value.vint 1), ("y", Value.vint 2)])])
      (Value.vdict [("b", Value.vdict [("y", Value.vint 3)])]) =
      Value.vdict [("a", Value.vint 1),
        ("b", Value.vdict [("x", Value.vint 1), ("y", Value.vint 3)])]) := by
  refine ⟨merge_self, ?_, ?_, ?_, ?_, ?_, ?_, ?_⟩
  · intro b
    simp [merge, mergePairs, dictUpdate]
  · intro b o k hk
    simp only [merge, getKey]
    rw [dictUpdate_get_notin _ _ _ (by rw [hasKey_mergePairs]; exact hk)]
  · intro b o k hnd hk
    simp only [merge, getKey]
    rw [dictUpdate_get_in _ _ _ (nodupKeys_mergePairs b o hnd)
      (by rw [hasKey_mergePairs]; exact hk), mergePairs_get b o k hk]
  · intro b o
    simp only [merge, listLen]
    exact mergeZip_length b o
  · intro b o i
    simp only [merge, listGetD]
    exact mergeZip_getD b o i
  · intro b o h1 h2
    constructor
    · intro ho
      subst ho
      cases b <;> simp [merge]
    · intro ho
      cases b <;> cases o <;> simp_all [merge, isDictV, isListV]
  · simp [merge, mergePairs, dictUpdate, dictGet, dictSet, hasKey]

/-- C1 witness: the merge algebra instantiated on concrete dicts. -/
theorem C1_merge_spec_witness :
    (wfValue (Value.vdict [("a", Value.vint 1),
        ("b", Value.vlist [Value.vint 2])]) = true ∧
      merge (Value.vdict [("a", Value.vint 1), ("b", Value.vlist [Value.vint 2])])
        (Value.vdict [("a", Value.vint 1), ("b", Value.vlist [Value.vint 2])]) =
        Value.vdict [("a", Value.vint 1), ("b", Value.vlist [Value.vint 2])]) ∧
    getKey (merge (Value.vdict [("a", Value.vint 1), ("c", Value.vint 7)])
        (Value.vdict [("c", Value.vint 9)])) "a" =
      dictGet [("a", Value.vint 1), ("c", Value.vint 7)] "a" ∧
    getKey (merge (Value.vdict [("a", Value.vint 1), ("c", Value.vint 7)])
        (Value.vdict [("c", Value.vint 9)])) "c" =
      merge (dictGet [("a", Value.vint 1), ("c", Value.vint 7)] "c")
        (dictGet [("c", Value.vint 9)] "c") := by
  refine ⟨⟨by decide, C1_merge_spec.1 _ (by decide)⟩, ?_, ?_⟩
  · exact C1_merge_spec.2.2.1 _ _ "a" (by decide)
  · exact C1_merge_spec.2.2.2.1 _ _ "c" (by decide) (by decide)

/-! ### Heap-level model of `merge` for the frame claim

Object identity and sharing are invisible at value level, so `merge` is
embedded a second time over an explicit heap of Python objects.
Addresses are `Nat`; `Option Nat` is an object reference, with `none`
the (unallocated, immutable) `None` singleton.  Scalars are immutable.
The fuel argument decreases on every call so that the functions are
structurally recursive and computable by the kernel; on any input a
Python execution terminates on, some fuel suffices. -/

/-- A heap cell: one Python object as `merge` sees it. -/
inductive PCell where
  | pint : Int → PCell
  | pstr : String → PCell
  | pbool : Bool → PCell
  | plist : List (Option Nat) → PCell
  | pdict : List (String × Option Nat) → PCell
  deriving Repr, DecidableEq

/-- An object reference: `none` is Python `None`. -/
abbrev PVal := Option Nat

/-- A heap: allocated cells (address, cell) and the next fresh address. -/
structure Heap where
  cells : List (Nat × PCell)
  next : Nat
  deriving Repr, DecidableEq

def Heap.read (h : Heap) (a : Nat) : Option PCell :=
  (h.cells.find? (fun p => p.1 = a)).map Prod.snd

def Heap.alloc (h : Heap) (c : PCell) : Heap × Nat :=
  (⟨h.cells ++ [(h.next, c)], h.next + 1⟩, h.next)

/-- In-place mutation of the object at address `a`. -/
def Heap.write (h : Heap) (a : Nat) (c : PCell) : Heap :=
  ⟨h.cells.map (fun p => if p.1 = a then (a, c) else p), h.next⟩

def Heap.dom (h : Heap) (a : Nat) : Bool := h.cells.any (fun p => p.1 = a)

def addrNodup : List (Nat × PCell) → Bool
  | [] => true
  | (a, _) :: rest => !(rest.any (fun p => p.1 = a)) && addrNodup rest

/-- Well-bounded heap: every address is below `next` and unique. -/
def Heap.wb (h : Heap) : Bool :=
  h.cells.all (fun p => p.1 < h.next) && addrNodup h.cells

/-- `base.get(k, None)` on a heap dict's entry list. -/
def entryGet (db : List (String × PVal)) (k : String) : PVal :=
  match db.find? (fun p => p.1 = k) with
  | some p => p.2
  | none => none

/-- One binding step of `dict.update` on an entry list. -/
def entrySet (d : List (String × PVal)) (k : String) (v : PVal) :
    List (String × PVal) :=
  if d.any (fun p => p.1 = k) then d.map (fun p => if p.1 = k then (k, v) else p)
  else d ++ [(k, v)]

def applyEntryUpdates (d upd : List (String × PVal)) : List (String × PVal) :=
  upd.foldl (fun acc p => entrySet acc p.1 p.2) d

/-- `itertools.zip_longest(lb, lo)` with `None` fill. -/
def zipLongestP : List PVal → List PVal → List (PVal × PVal)
  | [], [] => []
  | x :: xs, [] => (x, none) :: zipLongestP xs []
  | [], y :: ys => (none, y) :: zipLongestP [] ys
  | x :: xs, y :: ys => (x, y) :: zipLongestP xs ys

mutual
/-- `copy.deepcopy`: `None` and immutable scalars are returned as the
same object (as CPython does); lists and dicts are rebuilt fresh. -/
def deepcopyH : Nat → Heap → PVal → Option (Heap × PVal)
  | 0, _, _ => none
  | _ + 1, h, none => some (h, none)
  | fuel + 1, h, some a =>
    match h.read a with
    | none => none
    | some (PCell.pint _) => some (h, some a)
    | some (PCell.pstr _) => some (h, some a)
    | some (PCell.pbool _) => some (h, some a)
    | some (PCell.plist es) =>
      match deepcopyListH fuel h es with
      | none => none
      | some (h1, es1) =>
        let an := (h1.alloc (PCell.plist es1))
        some (an.1, some an.2)
    | some (PCell.pdict en) =>
      match deepcopyEntriesH fuel h en with
      | none => none
      | some (h1, en1) =>
        let an := (h1.alloc (PCell.pdict en1))
        some (an.1, some an.2)

def deepcopyListH : Nat → Heap → List PVal → Option (Heap × List PVal)
  | 0, _, _ => none
  | _ + 1, h, [] => some (h, [])
  | fuel + 1, h, v :: rest =>
    match deepcopyH fuel h v with
    | none => none
    | some (h1, v1) =>
      match deepcopyListH fuel h1 rest with
      | none => none
      | some (h2, rest1) => some (h2, v1 :: rest1)

def deepcopyEntriesH : Nat → Heap → List (String × PVal) →
    Option (Heap × List (String × PVal))
  | 0, _, _ => none
  | _ + 1, h, [] => some (h, [])
  | fuel + 1, h, (k, v) :: rest =>
    match deepcopyH fuel h v with
    | none => none
    | some (h1, v1) =>
      match deepcopyEntriesH fuel h1 rest with
      | none => none
      | some (h2, rest1) => some (h2, (k, v1) :: rest1)
end

mutual
/-- Heap-level `merge(base, override)`.  The dict arm allocates the
shallow copy `new_dict = dict(base)` first (sharing every entry
reference of `base`), computes the merged bindings reading `base`, and
then mutates the freshly allocated dict in place (`new_dict.update`).
The list arm computes the merged elements and allocates the result
list.  The final arm is `deepcopy(base) if override is None else
deepcopy(override)`. -/
def mergeH : Nat → Heap → PVal → PVal → Option (Heap × PVal)
  | 0, _, _, _ => none
  | fuel + 1, h, b, o =>
    match b, o with
    | some ab, some ao =>
      match h.read ab, h.read ao with
      | some (PCell.pdict db), some (PCell.pdict od) =>
        let hn := h.alloc (PCell.pdict db)
        match mergeEntriesH fuel hn.1 db od with
        | none => none
        | some (h2, upds) =>
          some (h2.write hn.2 (PCell.pdict (applyEntryUpdates db upds)),
            some hn.2)
      | some (PCell.plist lb), some (PCell.plist lo) =>
        match mergeZipH fuel h (zipLongestP lb lo) with
        | none => none
        | some (h1, elems) =>
          let an := h1.alloc (PCell.plist elems)
          some (an.1, some an.2)
      | some _, some _ => deepcopyH fuel h (some ao)
      | _, _ => none
    | b, none => deepcopyH fuel h b
    | none, some ao => deepcopyH fuel h (some ao)

/-- The dict comprehension of `merge`, one binding per `override` key,
each lookup reading the unmodified `base` entries. -/
def mergeEntriesH : Nat → Heap → List (String × PVal) →
    List (String × PVal) → Option (Heap × List (String × PVal))
  | 0, _, _, _ => none
  | _ + 1, h, _, [] => some (h, [])
  | fuel + 1, h, db, (k, v) :: rest =>
    match mergeH fuel h (entryGet db k) v with
    | none => none
    | some (h1, v1) =>
      match mergeEntriesH fuel h1 db rest with
      | none => none
      | some (h2, rest1) => some (h2, (k, v1) :: rest1)

/-- The list comprehension of `merge` over the zipped pairs. -/
def mergeZipH : Nat → Heap → List (PVal × PVal) → Option (Heap × List PVal)
  | 0, _, _ => none
  | _ + 1, h, [] => some (h, [])
  | fuel + 1, h, (x, y) :: rest =>
    match mergeH fuel h x y with
    | none => none
    | some (h1, v1) =>
      match mergeZipH fuel h1 rest with
      | none => none
      | some (h2, rest1) => some (h2, v1 :: rest1)
end

mutual
/-- Fuel-bounded set of addresses reachable from a reference. -/
def reachableH : Nat → Heap → PVal → List Nat
  | 0, _, _ => []
  | _ + 1, _, none => []
  | fuel + 1, h, some a =>
    a :: (match h.read a with
      | some (PCell.plist es) => reachableListH fuel h es
      | some (PCell.pdict en) => reachableEntriesH fuel h en
      | _ => [])

def reachableListH : Nat → Heap → List PVal → List Nat
  | 0, _, _ => []
  | _ + 1, _, [] => []
  | fuel + 1, h, v :: rest => reachableH fuel h v ++ reachableListH fuel h rest

def reachableEntriesH : Nat → Heap → List (String × PVal) → List Nat
  | 0, _, _ => []
  | _ + 1, _, [] => []
  | fuel + 1, h, p :: rest =>
    reachableH fuel h p.2 ++ reachableEntriesH fuel h rest
end

/-- Does address `a` hold a mutable (list or dict) object? -/
def isMutableAt (h : Heap) (a : Nat) : Bool :=
  match h.read a with
  | some (PCell.plist _) => true
  | some (PCell.pdict _) => true
  | _ => false

/-- Do `v` and `w` reach a common mutable object?  If so, mutating that
object through one reference is visible through the other. -/
def sharesMutable (fuel : Nat) (h : Heap) (v w : PVal) : Bool :=
  (reachableH fuel h v).any
    (fun a => isMutableAt h a && (reachableH fuel h w).contains a)

/-- The concrete counterexample heap: address 2 holds the base
`{"a": [1]}` (the list `[1]` lives at address 1), address 3 holds the
empty override `{}`. -/
def mergeHeapFx : Heap :=
  ⟨[(0, PCell.pint 1), (1, PCell.plist [some 0]),
    (2, PCell.pdict [("a", some 1)]), (3, PCell.pdict [])], 4⟩

/-- C4: the claim says the returned structure is new, so that mutating
the result does not alter `base` or `override`.  On
`merge({"a": [1]}, {})` the code returns a fresh dict (`dict(base)`)
whose binding for `"a"` is the very list object owned by `base`:
the result and `base` share a mutable object (address 1), so appending
to the result's list alters `base`.  The claim is refuted; the
no-mutation half survives and is proved in the amended theorem. -/
theorem C4_counterexample :
    (mergeH 10 mergeHeapFx (some 2) (some 3)).map (fun p => p.2) =
      some (some 4) ∧
    (mergeH 10 mergeHeapFx (some 2) (some 3)).map
      (fun p => sharesMutable 10 p.1 p.2 (some 2)) = some true := by decide

/-- Every cell of `h` reads back unchanged in `h'`. -/
def preservesCells (h' h : Heap) : Prop :=
  ∀ p ∈ h.cells, h'.read p.1 = some p.2

instance (h' h : Heap) : Decidable (preservesCells h' h) :=
  inferInstanceAs (Decidable (∀ p ∈ h.cells, h'.read p.1 = some p.2))

theorem read_mem (h : Heap) (a : Nat) (c : PCell) (hr : h.read a = some c) :
    (a, c) ∈ h.cells := by
  unfold Heap.read at hr
  cases hfind : h.cells.find? (fun p => p.1 = a) with
  | none => rw [hfind] at hr; simp at hr
  | some p =>
    rw [hfind] at hr
    simp at hr
    have hmem := List.mem_of_find?_eq_some hfind
    have hpred : p.1 = a := by simpa using List.find?_some hfind
    obtain ⟨p1, p2⟩ := p
    simp at hr hpred
    rw [← hpred, ← hr]
    exact hmem

theorem find_addr_of_nodup (cells : List (Nat × PCell))
    (hnd : addrNodup cells = true) (a : Nat) (c : PCell)
    (hm : (a, c) ∈ cells) :
    (cells.find? (fun p => p.1 = a)).map Prod.snd = some c := by
  induction cells with
  | nil => simp at hm
  | cons q rest ih =>
    obtain ⟨a0, c0⟩ := q
    have hnd' : rest.any (fun p => p.1 = a0) = false ∧ addrNodup rest = true := by
      simpa [addrNodup] using hnd
    rcases List.mem_cons.mp hm with h | h
    · injection h with h1 h2
      subst h1
      subst h2
      simp [List.find?]
    · have ha : a0 ≠ a := by
        intro he
        subst he
        have hcontra : rest.any (fun p => p.1 = a0) = true :=
          List.any_eq_true.mpr ⟨(a0, c), h, by simp⟩
        rw [hnd'.1] at hcontra
        exact absurd hcontra (by simp)
      rw [List.find?_cons_of_neg _ (by simpa using ha)]
      exact ih hnd'.2 h

theorem preservesCells_refl (h : Heap) (hwb : h.wb = true) :
    preservesCells h h := by
  intro p hp
  have hnd : addrNodup h.cells = true := by
    simp [Heap.wb, Bool.and_eq_true] at hwb
    exact hwb.2
  exact find_addr_of_nodup h.cells hnd p.1 p.2 hp

theorem preservesCells_trans (h3 h2 h1 : Heap)
    (ha : preservesCells h3 h2) (hb : preservesCells h2 h1) :
    preservesCells h3 h1 := by
  intro p hp
  have h4 := hb p hp
  have hm := read_mem h2 p.1 p.2 h4
  exact ha (p.1, p.2) hm

theorem preservesCells_alloc (h : Heap) (c : PCell) (hwb : h.wb = true) :
    preservesCells (h.alloc c).1 h := by
  intro p hp
  have h1 : h.read p.1 = some p.2 := preservesCells_refl h hwb p hp
  unfold Heap.read at h1 ⊢
  unfold Heap.alloc
  simp only [List.find?_append]
  cases hf : h.cells.find? (fun q => q.1 = p.1) with
  | none => rw [hf] at h1; simp at h1
  | some q =>
    rw [hf] at h1
    simp [Option.or]
    simpa using h1

theorem addrNodup_append_singleton (cells : List (Nat × PCell)) (a : Nat)
    (c : PCell) (hfresh : ∀ p ∈ cells, p.1 ≠ a)
    (hnd : addrNodup cells = true) :
    addrNodup (cells ++ [(a, c)]) = true := by
  induction cells with
  | nil => simp [addrNodup]
  | cons q rest ih =>
    obtain ⟨a0, c0⟩ := q
    have hnd' : rest.any (fun p => p.1 = a0) = false ∧ addrNodup rest = true := by
      simpa [addrNodup] using hnd
    have h2 := ih (fun p hp => hfresh p (List.mem_cons_of_mem _ hp)) hnd'.2
    have h0 : a0 ≠ a := hfresh (a0, c0) (List.mem_cons_self _ _)
    show addrNodup (((a0, c0) :: rest) ++ [(a, c)]) = true
    rw [List.cons_append]
    simp only [addrNodup, Bool.and_eq_true, Bool.not_eq_true']
    refine ⟨?_, h2⟩
    rw [List.any_eq_false]
    intro p hp
    rcases List.mem_append.mp hp with h3 | h3
    · have h4 := List.any_eq_false.mp hnd'.1 p h3
      simpa using h4
    · have h5 : p = (a, c) := by simpa using h3
      subst h5
      simp
      exact fun he => h0 he.symm

theorem wb_alloc (h : Heap) (c : PCell) (hwb : h.wb = true) :
    (h.alloc c).1.wb = true := by
  simp only [Heap.wb, Heap.alloc, Bool.and_eq_true, List.all_eq_true]
    at hwb ⊢
  constructor
  · intro p hp
    rcases List.mem_append.mp hp with h1 | h1
    · have := hwb.1 p h1
      simp at this ⊢
      omega
    · simp at h1
      subst h1
      simp
  · refine addrNodup_append_singleton _ _ _ ?_ hwb.2
    intro p hp he
    have := hwb.1 p hp
    simp at this
    omega

theorem not_dom_next (h : Heap) (hwb : h.wb = true) :
    h.dom h.next = false := by
  simp only [Heap.wb, Bool.and_eq_true, List.all_eq_true] at hwb
  simp only [Heap.dom, List.any_eq_false]
  intro p hp
  have := hwb.1 p hp
  simp at this ⊢
  omega

theorem find_map_write (cells : List (Nat × PCell)) (w : Nat) (c : PCell)
    (a : Nat) (hne : a ≠ w) :
    (cells.map (fun p => if p.1 = w then (w, c) else p)).find?
        (fun p => p.1 = a) =
      cells.find? (fun p => p.1 = a) := by
  induction cells with
  | nil => rfl
  | cons q rest ih =>
    obtain ⟨a0, c0⟩ := q
    simp only [List.map_cons]
    by_cases hq : a0 = w
    · subst hq
      rw [show (if ((a0, c0) : Nat × PCell).1 = a0 then (a0, c) else (a0, c0))
          = (a0, c) from if_pos rfl]
      have hna : ¬((a0, c0) : Nat × PCell).1 = a := fun he => hne he.symm
      rw [List.find?_cons_of_neg _ (by simpa using hna),
        List.find?_cons_of_neg _ (by simpa using hna)]
      exact ih
    · rw [show (if ((a0, c0) : Nat × PCell).1 = w then (w, c) else (a0, c0))
          = (a0, c0) from if_neg hq]
      by_cases ha : a0 = a
      · rw [List.find?_cons_of_pos _ (by simpa using ha),
          List.find?_cons_of_pos _ (by simpa using ha)]
      · rw [List.find?_cons_of_neg _ (by simpa using ha),
          List.find?_cons_of_neg _ (by simpa using ha)]
        exact ih

theorem read_write_ne (h : Heap) (w : Nat) (c : PCell) (a : Nat)
    (hne : a ≠ w) : (h.write w c).read a = h.read a := by
  unfold Heap.write Heap.read
  simp only
  rw [find_map_write h.cells w c a hne]

theorem any_key_congr : ∀ (l1 l2 : List (Nat × PCell)) (a : Nat),
    l1.map Prod.fst = l2.map Prod.fst →
    l1.any (fun p => p.1 = a) = l2.any (fun p => p.1 = a) := by
  intro l1
  induction l1 with
  | nil =>
    intro l2 a h
    cases l2 <;> simp_all
  | cons p rest ih =>
    intro l2 a h
    cases l2 with
    | nil => simp at h
    | cons q rest2 =>
      simp only [List.map_cons, List.cons.injEq] at h
      simp only [List.any_cons]
      rw [h.1, ih rest2 a h.2]

theorem addrNodup_congr_keys : ∀ (l1 l2 : List (Nat × PCell)),
    l1.map Prod.fst = l2.map Prod.fst → addrNodup l1 = addrNodup l2 := by
  intro l1
  induction l1 with
  | nil =>
    intro l2 h
    cases l2 with
    | nil => rfl
    | cons q rest2 => simp at h
  | cons p rest ih =>
    intro l2 h
    cases l2 with
    | nil => simp at h
    | cons q rest2 =>
      obtain ⟨a, c⟩ := p
      obtain ⟨a2, c2⟩ := q
      simp only [List.map_cons, List.cons.injEq] at h
      simp only [addrNodup]
      have ha : a = a2 := h.1
      subst ha
      rw [any_key_congr rest rest2 a h.2, ih rest2 h.2]

theorem wb_write (h : Heap) (w : Nat) (c : PCell) (hwb : h.wb = true) :
    (h.write w c).wb = true := by
  simp only [Heap.wb, Heap.write, Bool.and_eq_true, List.all_eq_true]
    at hwb ⊢
  constructor
  · intro p hp
    rcases List.mem_map.mp hp with ⟨q, hq, hqe⟩
    by_cases hqw : q.1 = w
    · rw [if_pos hqw] at hqe
      have := hwb.1 q hq
      simp at this ⊢
      rw [← hqe]
      simp
      omega
    · rw [if_neg hqw] at hqe
      subst hqe
      exact hwb.1 q hq
  · have hfst : (h.cells.map (fun p => if p.1 = w then (w, c) else p)).map
        Prod.fst = h.cells.map Prod.fst := by
      rw [List.map_map]
      apply List.map_congr_left
      intro p hp
      by_cases hpw : p.1 = w
      · simp [Function.comp, if_pos hpw, hpw]
      · simp [Function.comp, if_neg hpw]
    rw [addrNodup_congr_keys _ _ hfst]
    exact hwb.2

theorem alloc_fst_next (h : Heap) (c : PCell) :
    (h.alloc c).1.next = h.next + 1 := rfl

theorem alloc_snd (h : Heap) (c : PCell) : (h.alloc c).2 = h.next := rfl

theorem write_next (h : Heap) (w : Nat) (c : PCell) :
    (h.write w c).next = h.next := rfl

/-- `deepcopy` only allocates: every pre-existing cell is preserved,
well-boundedness is kept, and the frontier only grows. -/
theorem deepcopy_frame : ∀ (fuel : Nat),
    (∀ h v h' r, Heap.wb h = true → deepcopyH fuel h v = some (h', r) →
      preservesCells h' h ∧ Heap.wb h' = true ∧ h.next ≤ h'.next) ∧
    (∀ h vs h' rs, Heap.wb h = true →
      deepcopyListH fuel h vs = some (h', rs) →
      preservesCells h' h ∧ Heap.wb h' = true ∧ h.next ≤ h'.next) ∧
    (∀ h en h' rs, Heap.wb h = true →
      deepcopyEntriesH fuel h en = some (h', rs) →
      preservesCells h' h ∧ Heap.wb h' = true ∧ h.next ≤ h'.next) := by
  intro fuel
  induction fuel with
  | zero =>
    refine ⟨?_, ?_, ?_⟩
    · intro h v h' r _ heq
      simp [deepcopyH] at heq
    · intro h vs h' rs _ heq
      simp [deepcopyListH] at heq
    · intro h en h' rs _ heq
      simp [deepcopyEntriesH] at heq
  | succ n ih =>
    obtain ⟨ihV, ihL, ihE⟩ := ih
    refine ⟨?_, ?_, ?_⟩
    · intro h v h' r hwb heq
      cases v with
      | none =>
        simp only [deepcopyH, Option.some.injEq] at heq
        injection heq with hA hB
        subst hA
        exact ⟨preservesCells_refl h hwb, hwb, le_rfl⟩
      | some a =>
        cases hr : h.read a with
        | none => simp [deepcopyH, hr] at heq
        | some cell =>
          cases cell with
          | pint nn =>
            simp only [deepcopyH, hr, Option.some.injEq] at heq
            injection heq with hA hB
            subst hA
            exact ⟨preservesCells_refl h hwb, hwb, le_rfl⟩
          | pstr ss =>
            simp only [deepcopyH, hr, Option.some.injEq] at heq
            injection heq with hA hB
            subst hA
            exact ⟨preservesCells_refl h hwb, hwb, le_rfl⟩
          | pbool bb =>
            simp only [deepcopyH, hr, Option.some.injEq] at heq
            injection heq with hA hB
            subst hA
            exact ⟨preservesCells_refl h hwb, hwb, le_rfl⟩
          | plist es =>
            cases hdl : deepcopyListH n h es with
            | none => simp [deepcopyH, hr, hdl] at heq
            | some pr =>
              obtain ⟨h1, es1⟩ := pr
              simp only [deepcopyH, hr, hdl, Option.some.injEq] at heq
              injection heq with hA hB
              have hrec := ihL h es h1 es1 hwb hdl
              subst hA
              refine ⟨?_, wb_alloc h1 _ hrec.2.1, ?_⟩
              · exact preservesCells_trans _ _ _
                  (preservesCells_alloc h1 _ hrec.2.1) hrec.1
              · rw [alloc_fst_next]
                have := hrec.2.2
                omega
          | pdict en =>
            cases hdl : deepcopyEntriesH n h en with
            | none => simp [deepcopyH, hr, hdl] at heq
            | some pr =>
              obtain ⟨h1, en1⟩ := pr
              simp only [deepcopyH, hr, hdl, Option.some.injEq] at heq
              injection heq with hA hB
              have hrec := ihE h en h1 en1 hwb hdl
              subst hA
              refine ⟨?_, wb_alloc h1 _ hrec.2.1, ?_⟩
              · exact preservesCells_trans _ _ _
                  (preservesCells_alloc h1 _ hrec.2.1) hrec.1
              · rw [alloc_fst_next]
                have := hrec.2.2
                omega
    · intro h vs h' rs hwb heq
      cases vs with
      | nil =>
        simp only [deepcopyListH, Option.some.injEq] at heq
        injection heq with hA hB
        subst hA
        exact ⟨preservesCells_refl h hwb, hwb, le_rfl⟩
      | cons v rest =>
        cases hd1 : deepcopyH n h v with
        | none => simp [deepcopyListH, hd1] at heq
        | some pr1 =>
          obtain ⟨h1, v1⟩ := pr1
          cases hd2 : deepcopyListH n h1 rest with
          | none => simp [deepcopyListH, hd1, hd2] at heq
          | some pr2 =>
            obtain ⟨h2, rest1⟩ := pr2
            simp only [deepcopyListH, hd1, hd2, Option.some.injEq] at heq
            injection heq with hA hB
            subst hA
            have r1 := ihV h v h1 v1 hwb hd1
            have r2 := ihL h1 rest h2 rest1 r1.2.1 hd2
            exact ⟨preservesCells_trans _ _ _ r2.1 r1.1, r2.2.1,
              le_trans r1.2.2 r2.2.2⟩
    · intro h en h' rs hwb heq
      cases en with
      | nil =>
        simp only [deepcopyEntriesH, Option.some.injEq] at heq
        injection heq with hA hB
        subst hA
        exact ⟨preservesCells_refl h hwb, hwb, le_rfl⟩
      | cons p rest =>
        obtain ⟨k, v⟩ := p
        cases hd1 : deepcopyH n h v with
        | none => simp [deepcopyEntriesH, hd1] at heq
        | some pr1 =>
          obtain ⟨h1, v1⟩ := pr1
          cases hd2 : deepcopyEntriesH n h1 rest with
          | none => simp [deepcopyEntriesH, hd1, hd2] at heq
          | some pr2 =>
            obtain ⟨h2, rest1⟩ := pr2
            simp only [deepcopyEntriesH, hd1, hd2, Option.some.injEq] at heq
            injection heq with hA hB
            subst hA
            have r1 := ihV h v h1 v1 hwb hd1
            have r2 := ihE h1 rest h2 rest1 r1.2.1 hd2
            exact ⟨preservesCells_trans _ _ _ r2.1 r1.1, r2.2.1,
              le_trans r1.2.2 r2.2.2⟩

/-- `merge` never mutates a pre-existing object: its only write targets
the freshly allocated result dict.  Every cell of the input heap is
preserved, well-boundedness is kept, and the frontier only grows. -/
theorem merge_frame : ∀ (fuel : Nat),
    (∀ h b o h' r, Heap.wb h = true → mergeH fuel h b o = some (h', r) →
      preservesCells h' h ∧ Heap.wb h' = true ∧ h.next ≤ h'.next) ∧
    (∀ h db od h' rs, Heap.wb h = true →
      mergeEntriesH fuel h db od = some (h', rs) →
      preservesCells h' h ∧ Heap.wb h' = true ∧ h.next ≤ h'.next) ∧
    (∀ h ps h' rs, Heap.wb h = true →
      mergeZipH fuel h ps = some (h', rs) →
      preservesCells h' h ∧ Heap.wb h' = true ∧ h.next ≤ h'.next) := by
  intro fuel
  induction fuel with
  | zero =>
    refine ⟨?_, ?_, ?_⟩
    · intro h b o h' r _ heq
      simp [mergeH] at heq
    · intro h db od h' rs _ heq
      simp [mergeEntriesH] at heq
    · intro h ps h' rs _ heq
      simp [mergeZipH] at heq
  | succ n ih =>
    obtain ⟨ihV, ihE, ihZ⟩ := ih
    refine ⟨?_, ?_, ?_⟩
    · intro h b o h' r hwb heq
      cases b with
      | none =>
        cases o with
        | none =>
          simp only [mergeH] at heq
          exact (deepcopy_frame n).1 h none h' r hwb heq
        | some ao =>
          simp only [mergeH] at heq
          exact (deepcopy_frame n).1 h (some ao) h' r hwb heq
      | some ab =>
        cases o with
        | none =>
          simp only [mergeH] at heq
          exact (deepcopy_frame n).1 h (some ab) h' r hwb heq
        | some ao =>
          cases hr1 : h.read ab with
          | none => simp [mergeH, hr1] at heq
          | some cb =>
            cases hr2 : h.read ao with
            | none =>
              cases cb <;> simp [mergeH, hr1, hr2] at heq
            | some co =>
              -- the dict/dict and list/list arms; otherwise deepcopy
              cases cb with
              | pdict db =>
                cases co with
                | pdict od =>
                  cases hme : mergeEntriesH n (h.alloc (PCell.pdict db)).1
                      db od with
                  | none => simp [mergeH, hr1, hr2, hme] at heq
                  | some pr =>
                    obtain ⟨h2, upds⟩ := pr
                    simp only [mergeH, hr1, hr2, hme,
                      Option.some.injEq] at heq
                    injection heq with hA hB
                    have hwb1 : (h.alloc (PCell.pdict db)).1.wb = true :=
                      wb_alloc h _ hwb
                    have r2 := ihE (h.alloc (PCell.pdict db)).1 db od h2
                      upds hwb1 hme
                    have hpres2 : preservesCells h2 h :=
                      preservesCells_trans _ _ _ r2.1
                        (preservesCells_alloc h _ hwb)
                    have hnext2 : h.next + 1 ≤ h2.next := by
                      have := r2.2.2
                      rw [alloc_fst_next] at this
                      omega
                    subst hA
                    refine ⟨?_, wb_write h2 _ _ r2.2.1, ?_⟩
                    · intro p hp
                      have hplt : p.1 < h.next := by
                        simp only [Heap.wb, Bool.and_eq_true,
                          List.all_eq_true] at hwb
                        have := hwb.1 p hp
                        simpa using this
                      rw [alloc_snd]
                      rw [read_write_ne h2 h.next _ p.1 (by omega)]
                      exact hpres2 p hp
                    · rw [write_next]
                      omega
                | pint _ =>
                  simp only [mergeH, hr1, hr2] at heq
                  exact (deepcopy_frame n).1 h (some ao) h' r hwb heq
                | pstr _ =>
                  simp only [mergeH, hr1, hr2] at heq
                  exact (deepcopy_frame n).1 h (some ao) h' r hwb heq
                | pbool _ =>
                  simp only [mergeH, hr1, hr2] at heq
                  exact (deepcopy_frame n).1 h (some ao) h' r hwb heq
                | plist _ =>
                  simp only [mergeH, hr1, hr2] at heq
                  exact (deepcopy_frame n).1 h (some ao) h' r hwb heq
              | plist lb =>
                cases co with
                | plist lo =>
                  cases hmz : mergeZipH n h (zipLongestP lb lo) with
                  | none => simp [mergeH, hr1, hr2, hmz] at heq
                  | some pr =>
                    obtain ⟨h1, elems⟩ := pr
                    simp only [mergeH, hr1, hr2, hmz,
                      Option.some.injEq] at heq
                    injection heq with hA hB
                    have r1 := ihZ h (zipLongestP lb lo) h1 elems hwb hmz
                    subst hA
                    refine ⟨?_, wb_alloc h1 _ r1.2.1, ?_⟩
                    · exact preservesCells_trans _ _ _
                        (preservesCells_alloc h1 _ r1.2.1) r1.1
                    · rw [alloc_fst_next]
                      have := r1.2.2
                      omega
                | pint _ =>
                  simp only [mergeH, hr1, hr2] at heq
                  exact (deepcopy_frame n).1 h (some ao) h' r hwb heq
                | pstr _ =>
                  simp only [mergeH, hr1, hr2] at heq
                  exact (deepcopy_frame n).1 h (some ao) h' r hwb heq
                | pbool _ =>
                  simp only [mergeH, hr1, hr2] at heq
                  exact (deepcopy_frame n).1 h (some ao) h' r hwb heq
                | pdict _ =>
                  simp only [mergeH, hr1, hr2] at heq
                  exact (deepcopy_frame n).1 h (some ao) h' r hwb heq
              | pint _ =>
                simp only [mergeH, hr1, hr2] at heq
                exact (deepcopy_frame n).1 h (some ao) h' r hwb heq
              | pstr _ =>
                simp only [mergeH, hr1, hr2] at heq
                exact (deepcopy_frame n).1 h (some ao) h' r hwb heq
              | pbool _ =>
                simp only [mergeH, hr1, hr2] at heq
                exact (deepcopy_frame n).1 h (some ao) h' r hwb heq
    · intro h db od h' rs hwb heq
      cases od with
      | nil =>
        simp only [mergeEntriesH, Option.some.injEq] at heq
        injection heq with hA hB
        subst hA
        exact ⟨preservesCells_refl h hwb, hwb, le_rfl⟩
      | cons p rest =>
        obtain ⟨k, v⟩ := p
        cases hd1 : mergeH n h (entryGet db k) v with
        | none => simp [mergeEntriesH, hd1] at heq
        | some pr1 =>
          obtain ⟨h1, v1⟩ := pr1
          cases hd2 : mergeEntriesH n h1 db rest with
          | none => simp [mergeEntriesH, hd1, hd2] at heq
          | some pr2 =>
            obtain ⟨h2, rest1⟩ := pr2
            simp only [mergeEntriesH, hd1, hd2, Option.some.injEq] at heq
            injection heq with hA hB
            subst hA
            have r1 := ihV h (entryGet db k) v h1 v1 hwb hd1
            have r2 := ihE h1 db rest h2 rest1 r1.2.1 hd2
            exact ⟨preservesCells_trans _ _ _ r2.1 r1.1, r2.2.1,
              le_trans r1.2.2 r2.2.2⟩
    · intro h ps h' rs hwb heq
      cases ps with
      | nil =>
        simp only [mergeZipH, Option.some.injEq] at heq
        injection heq with hA hB
        subst hA
        exact ⟨preservesCells_refl h hwb, hwb, le_rfl⟩
      | cons p rest =>
        obtain ⟨x, y⟩ := p
        cases hd1 : mergeH n h x y with
        | none => simp [mergeZipH, hd1] at heq
        | some pr1 =>
          obtain ⟨h1, v1⟩ := pr1
          cases hd2 : mergeZipH n h1 rest with
          | none => simp [mergeZipH, hd1, hd2] at heq
          | some pr2 =>
            obtain ⟨h2, rest1⟩ := pr2
            simp only [mergeZipH, hd1, hd2, Option.some.injEq] at heq
            injection heq with hA hB
            subst hA
            have r1 := ihV h x y h1 v1 hwb hd1
            have r2 := ihZ h1 rest h2 rest1 r1.2.1 hd2
            exact ⟨preservesCells_trans _ _ _ r2.1 r1.1, r2.2.1,
              le_trans r1.2.2 r2.2.2⟩

theorem mergeH_dict_fresh (fuel : Nat) (h : Heap) (ab ao : Nat)
    (db od : List (String × PVal)) (h' : Heap) (r : PVal)
    (hwb : Heap.wb h = true)
    (hb : h.read ab = some (PCell.pdict db))
    (ho : h.read ao = some (PCell.pdict od))
    (heq : mergeH fuel h (some ab) (some ao) = some (h', r)) :
    r = some h.next ∧ h.dom h.next = false := by
  cases fuel with
  | zero => simp [mergeH] at heq
  | succ n =>
    cases hme : mergeEntriesH n (h.alloc (PCell.pdict db)).1 db od with
    | none => simp [mergeH, hb, ho, hme] at heq
    | some pr =>
      obtain ⟨h2, upds⟩ := pr
      simp only [mergeH, hb, ho, hme, Option.some.injEq] at heq
      injection heq with hA hB
      refine ⟨?_, not_dom_next h hwb⟩
      rw [← hB, alloc_snd]

/-- C4 (amended): `merge` never mutates either input — after the call
every pre-existing heap cell reads back exactly its pre-call content,
and the heap stays well-bounded — and for two dict inputs the returned
object is freshly allocated (its address was not in the pre-call
heap).  The original claim's last part, that mutating the result
cannot alter `base` or `override`, is false: see the counterexample,
where an unoverridden entry of the result dict is the very list object
owned by `base`. -/
theorem C4_merge_never_mutates :
    (∀ fuel h b o h' r, Heap.wb h = true →
      mergeH fuel h b o = some (h', r) →
      preservesCells h' h ∧ Heap.wb h' = true) ∧
    (∀ fuel h ab ao db od h' r, Heap.wb h = true →
      h.read ab = some (PCell.pdict db) →
      h.read ao = some (PCell.pdict od) →
      mergeH fuel h (some ab) (some ao) = some (h', r) →
      r = some h.next ∧ h.dom h.next = false) := by
  constructor
  · intro fuel h b o h' r hwb heq
    have := (merge_frame fuel).1 h b o h' r hwb heq
    exact ⟨this.1, this.2.1⟩
  · intro fuel h ab ao db od h' r hwb hb ho heq
    exact mergeH_dict_fresh fuel h ab ao db od h' r hwb hb ho heq

/-- The heap produced by the counterexample run, written out. -/
def mergeHeapFxOut : Heap :=
  ⟨[(0, PCell.pint 1), (1, PCell.plist [some 0]),
    (2, PCell.pdict [("a", some 1)]), (3, PCell.pdict []),
    (4, PCell.pdict [("a", some 1)])], 5⟩

/-- C4 witness: the no-mutation and fresh-root facts instantiated on
the concrete run `merge({"a": [1]}, {})`. -/
theorem C4_merge_never_mutates_witness :
    (preservesCells mergeHeapFxOut mergeHeapFx ∧
      Heap.wb mergeHeapFxOut = true) ∧
    ((some 4 : PVal) = some mergeHeapFx.next ∧
      mergeHeapFx.dom mergeHeapFx.next = false) := by
  refine ⟨?_, ?_⟩
  · exact C4_merge_never_mutates.1 10 mergeHeapFx (some 2) (some 3)
      mergeHeapFxOut (some 4) (by decide) (by decide)
  · exact C4_merge_never_mutates.2 10 mergeHeapFx 2 3 [("a", some 1)] []
      mergeHeapFxOut (some 4) (by decide) (by decide) (by decide) (by decide)

/-! ### The tree walker (`get_all_nodes` in src/aim/models/loader.py)

A model node carries an identifier, an optional container payload (its
`values()` when the node provides `IMapping`, in insertion order) and
its schema-declared fields in declaration order.  `objField` models an
`IObject` field (`getattr(..., None)` plus the `if obj:` truthiness
test as presence), `dictField` an `IDict` field's `values()`,
`listField` an `IList` field with its `readonly` flag, whose elements
are strings or model objects (the code skips exactly the strings). -/

mutual
inductive MNode where
  | mk : Nat → Option (List MNode) → List MField → MNode

inductive MField where
  | objField : Option MNode → MField
  | dictField : List MNode → MField
  | listField : Bool → List MElem → MField
  | otherField : MField

inductive MElem where
  | strElem : String → MElem
  | nodeElem : MNode → MElem
end

def MNode.nodeId : MNode → Nat
  | .mk i _ _ => i

/-- The children one loop iteration pushes for a field, in push order. -/
def fieldPushes : MField → List MNode
  | .objField (some c) => [c]
  | .objField none => []
  | .dictField vs => vs
  | .listField true _ => []
  | .listField false elems =>
    elems.filterMap (fun e => match e with
      | .nodeElem n => some n
      | .strElem _ => none)
  | .otherField => []

/-- Everything one loop iteration pushes for a node, in push order:
container values first, then the field-derived children. -/
def pushes : MNode → List MNode
  | .mk _ container fields =>
    container.getD [] ++ (fields.map fieldPushes).flatten

mutual
/-- Explicit size of a model node, for termination measures. -/
def msizeN : MNode → Nat
  | .mk _ cont fields => 1 + msizeOpt cont + msizeFields fields

def msizeOpt : Option (List MNode) → Nat
  | none => 0
  | some l => msizeList l

def msizeList : List MNode → Nat
  | [] => 0
  | x :: xs => 1 + msizeN x + msizeList xs

def msizeFields : List MField → Nat
  | [] => 0
  | f :: fs => msizeField f + msizeFields fs

def msizeField : MField → Nat
  | .objField (some c) => 1 + msizeN c
  | .objField none => 0
  | .dictField vs => msizeList vs
  | .listField _ elems => msizeElems elems
  | .otherField => 0

def msizeElems : List MElem → Nat
  | [] => 0
  | .strElem _ :: es => 1 + msizeElems es
  | .nodeElem n :: es => 1 + msizeN n + msizeElems es
end

def sumSize (l : List MNode) : Nat := (l.map msizeN).sum

theorem sumSize_append (a b : List MNode) :
    sumSize (a ++ b) = sumSize a + sumSize b := by
  simp [sumSize]

theorem sumSize_reverse (l : List MNode) :
    sumSize l.reverse = sumSize l := by
  simp [sumSize, List.sum_reverse]

theorem sumSize_cons (x : MNode) (l : List MNode) :
    sumSize (x :: l) = msizeN x + sumSize l := by
  simp [sumSize]

theorem sumSize_le_msizeList (l : List MNode) : sumSize l ≤ msizeList l := by
  induction l with
  | nil => simp [sumSize, msizeList]
  | cons x xs ih =>
    rw [sumSize_cons, msizeList]
    omega

theorem msizeN_le_sumSize_of_mem (x : MNode) (l : List MNode)
    (h : x ∈ l) : msizeN x ≤ sumSize l := by
  induction l with
  | nil => simp at h
  | cons y ys ih =>
    rw [sumSize_cons]
    rcases List.mem_cons.mp h with h1 | h1
    · subst h1; omega
    · have := ih h1; omega

theorem fieldPushes_size (f : MField) :
    sumSize (fieldPushes f) ≤ msizeField f := by
  cases f with
  | objField o =>
    cases o with
    | none => simp [fieldPushes, sumSize, msizeField]
    | some c =>
      simp [fieldPushes, sumSize, msizeField]
  | dictField vs =>
    simp only [fieldPushes, msizeField]
    exact sumSize_le_msizeList vs
  | listField ro elems =>
    cases ro with
    | true => simp [fieldPushes, sumSize, msizeField]
    | false =>
      simp only [fieldPushes, msizeField]
      induction elems with
      | nil => simp [sumSize, msizeElems]
      | cons e es ihe =>
        cases e with
        | strElem str =>
          simp only [List.filterMap_cons, msizeElems]
          omega
        | nodeElem n =>
          simp only [List.filterMap_cons, msizeElems]
          rw [sumSize_cons]
          omega
  | otherField => simp [fieldPushes, sumSize, msizeField]

theorem pushes_size (n : MNode) : sumSize (pushes n) < msizeN n := by
  obtain ⟨i, cont, fields⟩ := n
  simp only [pushes, sumSize_append, msizeN]
  have h1 : sumSize (cont.getD []) ≤ msizeOpt cont := by
    cases cont with
    | none => simp [sumSize, msizeOpt]
    | some l =>
      simp only [Option.getD, msizeOpt]
      exact sumSize_le_msizeList l
  have h2 : sumSize (fields.map fieldPushes).flatten ≤ msizeFields fields := by
    induction fields with
    | nil => simp [sumSize, msizeFields]
    | cons f fs ihf =>
      simp only [List.map_cons, List.flatten_cons, sumSize_append,
        msizeFields]
      have := fieldPushes_size f
      omega
  omega

/-- The `while stack:` loop of `get_all_nodes`: pop the FRONT of the
work list (`cur_node = stack[0]; stack = stack[1:]`), record the node,
then push every child at the FRONT (`stack.insert(0, child)`), so the
net effect of one iteration prepends the reversed push list. -/
def getAllNodesLoop : List MNode → List MNode
  | [] => []
  | cur :: rest => cur :: getAllNodesLoop ((pushes cur).reverse ++ rest)
termination_by stack => sumSize stack
decreasing_by
  simp_wf
  rw [sumSize_append, sumSize_reverse, sumSize_cons]
  have := pushes_size x
  omega

/-- `get_all_nodes(root)`: return a list of all nodes in the model. -/
def get_all_nodes (root : MNode) : List MNode := getAllNodesLoop [root]

/-- Modelled from the claim's words: the same enumeration as a
breadth-first FIFO work list, popping the front and appending children
at the back.  Used only to compare against the code's behaviour. -/
def fifoEnumLoop : List MNode → List MNode
  | [] => []
  | cur :: rest => cur :: fifoEnumLoop (rest ++ pushes cur)
termination_by stack => sumSize stack
decreasing_by
  simp_wf
  rw [sumSize_append, sumSize_cons]
  have := pushes_size x
  omega

def fifoEnum (root : MNode) : List MNode := fifoEnumLoop [root]

theorem msizeN_pos (n : MNode) : 1 ≤ msizeN n := by
  obtain ⟨i, cont, fields⟩ := n
  simp [msizeN]
  omega

mutual
/-- Declarative depth-first enumeration, visiting the pushed children
in reverse push order — the order the LIFO loop actually realizes. -/
def dfsEnum (n : MNode) : List MNode :=
  n :: dfsListEnum (pushes n).reverse
termination_by (msizeN n, 0)
decreasing_by
  simp_wf
  have := pushes_size n
  rw [sumSize_reverse]
  exact Prod.Lex.left _ _ (by omega)

def dfsListEnum : List MNode → List MNode
  | [] => []
  | x :: xs => dfsEnum x ++ dfsListEnum xs
termination_by l => (sumSize l, l.length + 1)
decreasing_by
  · simp_wf
    rw [sumSize_cons]
    rcases Nat.lt_or_ge 0 (sumSize xs) with h2 | h2
    · exact Prod.Lex.left _ _ (by omega)
    · have h3 : sumSize xs = 0 := by omega
      rw [h3]
      have h4 : msizeN x + 0 = msizeN x := by omega
      rw [h4]
      exact Prod.Lex.right _ (by omega)
  · simp_wf
    have h1 := msizeN_pos x
    rw [sumSize_cons]
    exact Prod.Lex.left _ _ (by omega)
end

mutual
/-- All nodes of a model tree, root first, children in declaration
order (container values, then field children). -/
def treeNodes : MNode → List MNode
  | .mk i cont fields =>
    MNode.mk i cont fields :: (treeNodesOpt cont ++ treeNodesFields fields)

def treeNodesOpt : Option (List MNode) → List MNode
  | none => []
  | some l => treeNodesList l

def treeNodesList : List MNode → List MNode
  | [] => []
  | x :: xs => treeNodes x ++ treeNodesList xs

def treeNodesFields : List MField → List MNode
  | [] => []
  | f :: fs => treeNodesField f ++ treeNodesFields fs

def treeNodesField : MField → List MNode
  | .objField (some c) => treeNodes c
  | .objField none => []
  | .dictField vs => treeNodesList vs
  | .listField true _ => []
  | .listField false elems => treeNodesElems elems
  | .otherField => []

def treeNodesElems : List MElem → List MNode
  | [] => []
  | .strElem _ :: es => treeNodesElems es
  | .nodeElem n :: es => treeNodes n ++ treeNodesElems es
end

theorem getAllNodesLoop_append : ∀ (k : Nat) (a b : List MNode),
    sumSize a ≤ k →
    getAllNodesLoop (a ++ b) = getAllNodesLoop a ++ getAllNodesLoop b := by
  intro k
  induction k with
  | zero =>
    intro a b h
    cases a with
    | nil => simp [getAllNodesLoop]
    | cons cur rest =>
      rw [sumSize_cons] at h
      have := msizeN_pos cur
      omega
  | succ n ih =>
    intro a b h
    cases a with
    | nil => simp [getAllNodesLoop]
    | cons cur rest =>
      have hsum : sumSize ((pushes cur).reverse ++ rest) ≤ n := by
        rw [sumSize_append, sumSize_reverse]
        have h2 := pushes_size cur
        rw [sumSize_cons] at h
        omega
      rw [List.cons_append]
      simp only [getAllNodesLoop]
      rw [← List.append_assoc, ih _ b hsum]
      simp

theorem getAllNodesLoop_eq_dfs : ∀ (k : Nat) (s : List MNode),
    sumSize s ≤ k → getAllNodesLoop s = dfsListEnum s := by
  intro k
  induction k with
  | zero =>
    intro s h
    cases s with
    | nil => simp [getAllNodesLoop, dfsListEnum]
    | cons cur rest =>
      rw [sumSize_cons] at h
      have := msizeN_pos cur
      omega
  | succ n ih =>
    intro s h
    cases s with
    | nil => simp [getAllNodesLoop, dfsListEnum]
    | cons cur rest =>
      have hpush : sumSize (pushes cur).reverse ≤ n := by
        rw [sumSize_reverse]
        have h2 := pushes_size cur
        rw [sumSize_cons] at h
        have := msizeN_pos cur
        omega
      have hrest : sumSize rest ≤ n := by
        rw [sumSize_cons] at h
        have := msizeN_pos cur
        omega
      have hb : sumSize (pushes cur).reverse ≤ n + 1 := by
        rw [sumSize_reverse]
        have h2 := pushes_size cur
        rw [sumSize_cons] at h
        omega
      simp only [getAllNodesLoop, dfsListEnum]
      rw [getAllNodesLoop_append (n + 1) _ rest hb, ih _ hpush, ih _ hrest]
      simp only [dfsEnum]
      simp

/-- The code's enumeration is exactly the reverse-order depth-first
enumeration. -/
theorem get_all_nodes_eq_dfs (root : MNode) :
    get_all_nodes root = dfsEnum root := by
  unfold get_all_nodes
  rw [getAllNodesLoop_eq_dfs (sumSize [root]) _ le_rfl]
  simp only [dfsListEnum]
  simp

theorem treeNodesList_append (a b : List MNode) :
    treeNodesList (a ++ b) = treeNodesList a ++ treeNodesList b := by
  induction a with
  | nil => simp [treeNodesList]
  | cons x xs ih => simp [treeNodesList, ih]

theorem treeNodesField_eq_pushes (f : MField) :
    treeNodesField f = treeNodesList (fieldPushes f) := by
  cases f with
  | objField o =>
    cases o with
    | none => simp [treeNodesField, fieldPushes, treeNodesList]
    | some c => simp [treeNodesField, fieldPushes, treeNodesList]
  | dictField vs => simp [treeNodesField, fieldPushes]
  | listField ro elems =>
    cases ro with
    | true => simp [treeNodesField, fieldPushes, treeNodesList]
    | false =>
      simp only [treeNodesField, fieldPushes]
      induction elems with
      | nil => simp [treeNodesElems, treeNodesList]
      | cons e es ihe =>
        cases e with
        | strElem str => simpa [treeNodesElems] using ihe
        | nodeElem n => simp [treeNodesElems, treeNodesList, ihe]
  | otherField => simp [treeNodesField, fieldPushes, treeNodesList]

theorem treeNodes_eq_pushes (n : MNode) :
    treeNodes n = n :: treeNodesList (pushes n) := by
  obtain ⟨i, cont, fields⟩ := n
  simp only [treeNodes, pushes, treeNodesList_append]
  congr 1
  congr 1
  · cases cont with
    | none => simp [treeNodesOpt, treeNodesList]
    | some l => simp [treeNodesOpt]
  · induction fields with
    | nil => simp [treeNodesFields, treeNodesList]
    | cons f fs ihf =>
      simp [treeNodesFields, treeNodesList_append, ihf,
        treeNodesField_eq_pushes]

theorem dfsListEnum_append (a b : List MNode) :
    dfsListEnum (a ++ b) = dfsListEnum a ++ dfsListEnum b := by
  induction a with
  | nil => simp [dfsListEnum]
  | cons x xs ih => simp [dfsListEnum, ih]

theorem dfsListEnum_reverse_perm (l : List MNode) :
    (dfsListEnum l.reverse).Perm (dfsListEnum l) := by
  induction l with
  | nil => simp
  | cons x xs ih =>
    simp only [List.reverse_cons, dfsListEnum_append, dfsListEnum]
    simp only [List.append_nil]
    exact (ih.append_right _).trans List.perm_append_comm

theorem dfsEnum_perm_treeNodes : ∀ (k : Nat) (n : MNode), msizeN n ≤ k →
    (dfsEnum n).Perm (treeNodes n) := by
  intro k
  induction k with
  | zero =>
    intro n h
    have := msizeN_pos n
    omega
  | succ m ih =>
    intro n h
    have hlist : ∀ (l : List MNode), (∀ x ∈ l, msizeN x ≤ m) →
        (dfsListEnum l).Perm (treeNodesList l) := by
      intro l
      induction l with
      | nil => intro _; simp [dfsListEnum, treeNodesList]
      | cons x xs ihl =>
        intro hx
        simp only [dfsListEnum, treeNodesList]
        exact (ih x (hx x (List.mem_cons_self _ _))).append
          (ihl fun y hy => hx y (List.mem_cons_of_mem _ hy))
    rw [treeNodes_eq_pushes]
    simp only [dfsEnum]
    refine List.Perm.cons n ?_
    exact (dfsListEnum_reverse_perm _).trans (hlist _ (fun x hx => by
      have h1 := msizeN_le_sumSize_of_mem x _ hx
      have h2 := pushes_size n
      omega))

/-- The counterexample tree: a root container with children `A` (id 1,
itself holding `A1`, id 3) and `B` (id 2). -/
def c2fx : MNode :=
  MNode.mk 0
    (some [MNode.mk 1 (some [MNode.mk 3 none []]) [], MNode.mk 2 none []]) []

/-- C2: the claim says the work list is FIFO and the enumeration
breadth-first.  The code pops `stack[0]` but also inserts every child
at index 0 — a LIFO stack.  On the fixture tree the code enumerates
ids `[0, 2, 1, 3]` (second child first, depth before breadth), while
the claimed FIFO enumeration would produce `[0, 1, 2, 3]`. -/
theorem C2_counterexample :
    (get_all_nodes c2fx).map MNode.nodeId = [0, 2, 1, 3] ∧
    (fifoEnum c2fx).map MNode.nodeId = [0, 1, 2, 3] ∧
    ([0, 2, 1, 3] : List Nat) ≠ [0, 1, 2, 3] := by
  refine ⟨?_, ?_, by decide⟩
  · simp [get_all_nodes, getAllNodesLoop, pushes, fieldPushes, c2fx,
      MNode.nodeId]
  · simp [fifoEnum, fifoEnumLoop, pushes, fieldPushes, c2fx, MNode.nodeId]

/-- C2 (amended): the walker is depth-first via a LIFO work list — it
pops the front node, records it, and pushes each child at the front (in
the order: container values, then per schema field the present
single-object child, the keyed-mapping values, and the non-string
elements of non-readonly list fields), so children are visited in
reverse push order.  Every node of the tree still appears exactly
once: the enumeration equals the reverse-order depth-first enumeration,
it is a permutation of the tree's nodes, and when all node identities
are distinct no node is visited twice. -/
theorem C2_tree_walker :
    (∀ root, get_all_nodes root = dfsEnum root) ∧
    (∀ root, (get_all_nodes root).Perm (treeNodes root)) ∧
    (∀ root, ((treeNodes root).map MNode.nodeId).Nodup →
      ((get_all_nodes root).map MNode.nodeId).Nodup) := by
  have hperm : ∀ root, (get_all_nodes root).Perm (treeNodes root) := by
    intro root
    rw [get_all_nodes_eq_dfs]
    exact dfsEnum_perm_treeNodes (msizeN root) root le_rfl
  refine ⟨get_all_nodes_eq_dfs, hperm, ?_⟩
  intro root h
  exact (((hperm root).map MNode.nodeId).nodup_iff).mpr h

/-- C2 witness: on the fixture tree the node ids are distinct and the
enumeration repeats none of them. -/
theorem C2_tree_walker_witness :
    ((treeNodes c2fx).map MNode.nodeId).Nodup ∧
    ((get_all_nodes c2fx).map MNode.nodeId).Nodup :=
  ⟨by decide, C2_tree_walker.2.2 c2fx (by decide)⟩

/-! ### The generic descent (`get_resolve_ref_obj` in references.py)

A model object has an identity, an optional subscript table (`none`
models an unsubscriptable object, whose `obj[k]` raises `TypeError`; a
stored `none` is a stored Python `None`), named attributes (an absent
attribute and an attribute holding `None` are indistinguishable through
`getattr(obj, name, None)`), and an optional `resolve_ref` method,
modelled as a function of the `resource_ref` string (the part of the
reference a resource interprets).  Values reached during the descent
are strings, other plain scalars (represented by `intV`), or model
objects. -/

mutual
inductive RVal where
  | strV : PyStr → RVal
  | intV : Int → RVal
  | objV : RObj → RVal

inductive RObj where
  | mk : Nat → Option (List (PyStr × Option RVal)) → List (PyStr × RVal) →
      Option (PyStr → Nat) → RObj
end

def RObj.oid : RObj → Nat
  | .mk i _ _ _ => i

def RObj.items : RObj → Option (List (PyStr × Option RVal))
  | .mk _ it _ _ => it

def RObj.atts : RObj → List (PyStr × RVal)
  | .mk _ _ a _ => a

def RObj.rr : RObj → Option (PyStr → Nat)
  | .mk _ _ _ r => r

/-- Association lookup with Python-string keys. -/
def plookup {α : Type} : List (PyStr × α) → PyStr → Option α
  | [], _ => none
  | (k, v) :: rest, key => if k = key then some v else plookup rest key

/-- One loop iteration's lookup:
`try: next_obj = obj[part] except (TypeError, KeyError): next_obj =
getattr(obj, part, None)`.  The result is `none` for Python `None`. -/
def lookupStep (v : RVal) (part : PyStr) : Option RVal :=
  match v with
  | .objV o =>
    match o.items with
    | some its =>
      match plookup its part with
      | some stored => stored
      | none => plookup o.atts part
    | none => plookup o.atts part
  | _ => none

/-- Did the loop break on this lookup?  The code advances exactly when
`next_obj != None and isinstance(next_obj, str) == False`. -/
def isStopVal : Option RVal → Bool
  | none => true
  | some (.strV _) => true
  | _ => false

/-- The `for part_idx in range(part_idx_start, len(ref.parts))` loop,
recursing over `parts[j:]` while tracking `part_idx = j`.  Returns the
final `part_idx` and the final `obj`: on `break` the pair `(j, obj)`;
when the loop runs off the end, `part_idx` stays at the last index. -/
def descendFrom (obj : RVal) (j : Nat) : List PyStr → Nat × RVal
  | [] => (j, obj)
  | p0 :: rest =>
    match lookupStep obj p0 with
    | none => (j, obj)
    | some (RVal.strV _) => (j, obj)
    | some nv =>
      match rest with
      | [] => (j, nv)
      | _ :: _ => descendFrom nv (j + 1) rest

def resolveRefFn : RVal → Option (PyStr → Nat)
  | .objV o => o.rr
  | _ => none

inductive DescendResult where
  | ok : PyStr → RVal → Nat → DescendResult
  | invalidRef : PyStr → RVal → DescendResult
  | nameError : DescendResult

/-- `ref.resource_ref` of the outcome. -/
def DescendResult.rrefOf : DescendResult → Option PyStr
  | .ok r _ _ => some r
  | .invalidRef r _ => some r
  | .nameError => none

/-- The returned `response`, `none` when an exception was raised. -/
def DescendResult.respOf : DescendResult → Option Nat
  | .ok _ _ n => some n
  | _ => none

/-- `get_resolve_ref_obj(obj, ref, part_idx_start)`.  When the range is
empty (`part_idx_start ≥ len(ref.parts)`), `part_idx` is never bound
and `ref.parts[part_idx:]` raises `NameError`.  Otherwise the loop
runs; `ref.resource_ref = '.'.join(ref.parts[part_idx:])`,
`ref.resource` is the final `obj`, and `obj.resolve_ref(ref)` is
invoked — `AttributeError` (no such method) is re-raised as
`InvalidAimReference`. -/
def get_resolve_ref_obj (obj : RVal) (parts : List PyStr)
    (startIdx : Nat) : DescendResult :=
  if parts.length ≤ startIdx then DescendResult.nameError
  else
    let pr := descendFrom obj startIdx (parts.drop startIdx)
    let rref := pjoin '.' (parts.drop pr.1)
    match resolveRefFn pr.2 with
    | some f => DescendResult.ok rref pr.2 (f rref)
    | none => DescendResult.invalidRef rref pr.2

def c3B : RObj := RObj.mk 2 (some []) [] (some fun r => r.length)

def c3A : RObj := RObj.mk 1 (some [("b".data, some (RVal.objV c3B))]) [] none

def c3root : RObj := RObj.mk 0 (some [("a".data, some (RVal.objV c3A))]) [] none

def c3root2 : RObj := RObj.mk 3 (some [("a".data, some (RVal.intV 5))]) [] none

/-- C3: two discrepancies with the claim.  (a) When every part resolves
to a node, the loop ends with `part_idx` at the LAST index, so
`resource_ref` is the final (consumed) part, not the empty remainder of
unconsumed parts.  (b) The code only stops on `None` or a string — a
part resolving to a non-string plain value (here the int `5`) is
entered, and the descent breaks one part later, so `resource_ref` is
`"x.y"` rather than the claimed `"a.x.y"`. -/
theorem C3_counterexample :
    ((get_resolve_ref_obj (RVal.objV c3root) ["a".data, "b".data]
        0).rrefOf = some "b".data ∧ "b".data ≠ ([] : PyStr)) ∧
    ((get_resolve_ref_obj (RVal.objV c3root2)
        ["a".data, "x".data, "y".data] 0).rrefOf = some "x.y".data ∧
      "x.y".data ≠ "a.x.y".data) := by decide

theorem descendFrom_spec : ∀ (rem : List PyStr) (obj : RVal) (j : Nat),
    rem ≠ [] →
    ∃ p fin, descendFrom obj j rem = (p, fin) ∧ j ≤ p ∧
      p < j + rem.length ∧
      (p + 1 < j + rem.length →
        isStopVal (lookupStep fin (rem.getD (p - j) [])) = true) := by
  intro rem
  induction rem with
  | nil => intro obj j h; exact absurd rfl h
  | cons p0 rest ih =>
    intro obj j _
    cases hl : lookupStep obj p0 with
    | none =>
      refine ⟨j, obj, ?_, le_rfl, by simp, ?_⟩
      · simp [descendFrom, hl]
      · intro _
        simp [hl, isStopVal]
    | some v =>
      cases v with
      | strV s =>
        refine ⟨j, obj, ?_, le_rfl, by simp, ?_⟩
        · simp [descendFrom, hl]
        · intro _
          simp [hl, isStopVal]
      | intV n =>
        cases rest with
        | nil =>
          refine ⟨j, RVal.intV n, ?_, le_rfl, by simp, ?_⟩
          · simp [descendFrom, hl]
          · intro hcon
            simp at hcon
        | cons r1 r2 =>
          obtain ⟨p, fin, heq, hle, hlt, hstop⟩ :=
            ih (RVal.intV n) (j + 1) (by simp)
          refine ⟨p, fin, ?_, by omega, by simp at hlt ⊢; omega, ?_⟩
          · have hstep : descendFrom obj j (p0 :: r1 :: r2) =
                descendFrom (RVal.intV n) (j + 1) (r1 :: r2) := by
              rw [descendFrom, hl]
            rw [hstep, heq]
          · intro hcon
            have hp1 : 1 ≤ p - j := by omega
            have hidx : (p0 :: r1 :: r2).getD (p - j) [] =
                (r1 :: r2).getD (p - j - 1) [] := by
              have hpj : p - j = (p - j - 1) + 1 := by omega
              rw [hpj]
              simp
            rw [hidx]
            have : p - (j + 1) = p - j - 1 := by omega
            rw [← this]
            exact hstop (by simp at hcon ⊢; omega)
      | objV o =>
        cases rest with
        | nil =>
          refine ⟨j, RVal.objV o, ?_, le_rfl, by simp, ?_⟩
          · simp [descendFrom, hl]
          · intro hcon
            simp at hcon
        | cons r1 r2 =>
          obtain ⟨p, fin, heq, hle, hlt, hstop⟩ :=
            ih (RVal.objV o) (j + 1) (by simp)
          refine ⟨p, fin, ?_, by omega, by simp at hlt ⊢; omega, ?_⟩
          · have hstep : descendFrom obj j (p0 :: r1 :: r2) =
                descendFrom (RVal.objV o) (j + 1) (r1 :: r2) := by
              rw [descendFrom, hl]
            rw [hstep, heq]
          · intro hcon
            have hp1 : 1 ≤ p - j := by omega
            have hidx : (p0 :: r1 :: r2).getD (p - j) [] =
                (r1 :: r2).getD (p - j - 1) [] := by
              have hpj : p - j = (p - j - 1) + 1 := by omega
              rw [hpj]
              simp
            rw [hidx]
            have : p - (j + 1) = p - j - 1 := by omega
            rw [← this]
            exact hstop (by simp at hcon ⊢; omega)

/-- C3 (amended): the descent walks parts from the start index,
with a keyed-child lookup first falling back to a named-attribute
lookup at every step; it stops at the first part resolving to `None`
or to a STRING (any other plain value is entered and the walk
continues from it); the final `part_idx` is the index of the breaking
part, or the LAST index when every part resolves (so a fully-consumed
reference keeps its final part in `resource_ref`);
`ref.resource_ref` joins `parts[part_idx:]` with `'.'`,
`ref.resource` is the last value reached, whose `resolve_ref`
produces the result (`InvalidAimReference` when it has none); an
out-of-range start index aborts with `NameError`. -/
theorem C3_generic_descent :
    (∀ obj parts i, parts.length ≤ i →
      get_resolve_ref_obj obj parts i = DescendResult.nameError) ∧
    (∀ obj parts i, i < parts.length →
      get_resolve_ref_obj obj parts i ≠ DescendResult.nameError) ∧
    (∀ o part its stored, RObj.items o = some its →
      plookup its part = some stored →
      lookupStep (RVal.objV o) part = stored) ∧
    (∀ o part its, RObj.items o = some its → plookup its part = none →
      lookupStep (RVal.objV o) part = plookup (RObj.atts o) part) ∧
    (∀ o part, RObj.items o = none →
      lookupStep (RVal.objV o) part = plookup (RObj.atts o) part) ∧
    (∀ obj parts i, i < parts.length →
      ∃ p fin, descendFrom obj i (parts.drop i) = (p, fin) ∧ i ≤ p ∧
        p < parts.length ∧
        get_resolve_ref_obj obj parts i =
          (match resolveRefFn fin with
           | some f => DescendResult.ok (pjoin '.' (parts.drop p)) fin
               (f (pjoin '.' (parts.drop p)))
           | none =>
               DescendResult.invalidRef (pjoin '.' (parts.drop p)) fin) ∧
        (p + 1 < parts.length →
          isStopVal (lookupStep fin (parts.getD p [])) = true)) := by
  refine ⟨?_, ?_, ?_, ?_, ?_, ?_⟩
  · intro obj parts i h
    simp [get_resolve_ref_obj, h]
  · intro obj parts i h
    simp only [get_resolve_ref_obj, if_neg (by omega : ¬parts.length ≤ i)]
    cases hres : resolveRefFn (descendFrom obj i (parts.drop i)).2 <;> simp
  · intro o part its stored h1 h2
    simp [lookupStep, h1, h2]
  · intro o part its h1 h2
    simp [lookupStep, h1, h2]
  · intro o part h1
    simp [lookupStep, h1]
  · intro obj parts i h
    have hne : parts.drop i ≠ [] := by
      intro hcon
      have := List.drop_eq_nil_iff.mp hcon
      omega
    obtain ⟨p, fin, heq, hle, hlt, hstop⟩ :=
      descendFrom_spec (parts.drop i) obj i hne
    rw [List.length_drop] at hlt
    refine ⟨p, fin, heq, hle, by omega, ?_, ?_⟩
    · simp only [get_resolve_ref_obj, if_neg (by omega : ¬parts.length ≤ i)]
      rw [heq]
    · intro hcon
      have h2 := hstop (by rw [List.length_drop]; omega)
      have hidx : (parts.drop i).getD (p - i) [] = parts.getD p [] := by
        have h3 : ∀ (l : List PyStr) (a b : Nat),
            (l.drop a).getD b [] = l.getD (a + b) [] := by
          intro l
          induction l with
          | nil => intro a b; simp
          | cons x xs ihl =>
            intro a b
            cases a with
            | zero => simp
            | succ a2 =>
              rw [List.drop_succ_cons]
              rw [ihl a2 b]
              have : a2 + 1 + b = (a2 + b) + 1 := by omega
              rw [this]
              simp
        have h4 := h3 parts i (p - i)
        have h5 : i + (p - i) = p := by omega
        rw [h5] at h4
        exact h4
      rw [hidx] at h2
      exact h2

/-- C3 witness: concrete instantiations of the descent behaviour. -/
theorem C3_generic_descent_witness :
    get_resolve_ref_obj (RVal.objV c3root) ["a".data] 5 =
      DescendResult.nameError ∧
    lookupStep (RVal.objV c3root) "a".data = some (RVal.objV c3A) ∧
    lookupStep (RVal.objV c3root2) "zz".data = none := by
  refine ⟨?_, ?_, ?_⟩
  · exact C3_generic_descent.1 (RVal.objV c3root) ["a".data] 5 (by decide)
  · exact C3_generic_descent.2.2.1 c3root "a".data
      [("a".data, some (RVal.objV c3A))] (some (RVal.objV c3A)) rfl rfl
  · exact C3_generic_descent.2.2.2.1 c3root2 "zz".data
      [("a".data, some (RVal.intV 5))] rfl rfl

/-! ### C5: the unknown-key check of apply_attributes_from_config

Embeds loader.py:356-363.  `fields = get_all_fields(obj)` collects the
field names of every interface the object implements (base.py:84-98);
the check runs only when the object does NOT provide
`zope.interface.common.mapping.IMapping`, iterates the config keys in
order, and raises `UnusedAimProjectField` at the first key outside the
field set. -/

/-- A loaded model object as seen by the unknown-key check: its class
name, whether it provides IMapping, and the key set of
`get_all_fields(obj)`. -/
structure LNode where
  typeName : PyStr
  isMapping : Bool
  fieldNames : List PyStr

/-- Message of the UnusedAimProjectField error built at
loader.py:361-363; it interpolates the file path, the offending key and
the object class name into fixed surrounding text. -/
def unusedFieldMessage (read_file_path key typeName : PyStr) : PyStr :=
  "Error in file at ".data ++ read_file_path
    ++ "\nUnneeded field '".data ++ key
    ++ "' in config for object type '".data ++ typeName
    ++ "'\n".data

/-- Unknown-key check of `apply_attributes_from_config`
(loader.py:356-363): skipped entirely when the object provides
IMapping; otherwise the first config key outside the field set raises,
and `some msg` is the raised message while `none` means no error. -/
def checkUnusedFields (obj : LNode) (configKeys : List PyStr)
    (read_file_path : PyStr) : Option PyStr :=
  if obj.isMapping then none
  else
    (configKeys.find? (fun key => !(obj.fieldNames.contains key))).map
      (fun key => unusedFieldMessage read_file_path key obj.typeName)

/-- A mapping object (a named-container class providing IMapping) whose
field set does not contain the key used below. -/
def c5mapNode : LNode :=
  LNode.mk "Accounts".data true ["name".data, "title".data]

/-- An ordinary (non-mapping) model object. -/
def c5objNode : LNode :=
  LNode.mk "NetworkEnvironment".data false ["name".data, "title".data]

/-- C5: the unknown-key check is skipped for every object providing
IMapping, so an unknown key in the config of a mapping object raises no
UnusedAimProjectField and the load proceeds. -/
theorem C5_counterexample :
    c5mapNode.isMapping = true ∧
    c5mapNode.fieldNames.contains "bogus".data = false ∧
    checkUnusedFields c5mapNode ["bogus".data] "ne.yaml".data = none := by
  decide

/-- C5 (amended): for an object not providing IMapping, every config
key is checked against the effective field set: when all keys are known
no error is raised, and otherwise the load aborts with an
UnusedAimProjectField for the first unknown key in config order, whose
message contains the source file path, that exact key, and the object
type name as substrings.  Objects providing IMapping skip the check and
accept arbitrary keys. -/
theorem C5_unused_field_check :
    (∀ obj keys path, LNode.isMapping obj = true →
      checkUnusedFields obj keys path = none) ∧
    (∀ obj keys path, LNode.isMapping obj = false →
      (∀ k, k ∈ keys → (LNode.fieldNames obj).contains k = true) →
      checkUnusedFields obj keys path = none) ∧
    (∀ obj keys path k, LNode.isMapping obj = false →
      keys.find? (fun q => !((LNode.fieldNames obj).contains q)) = some k →
      checkUnusedFields obj keys path =
          some (unusedFieldMessage path k (LNode.typeName obj)) ∧
        (path <:+: unusedFieldMessage path k (LNode.typeName obj)) ∧
        (k <:+: unusedFieldMessage path k (LNode.typeName obj)) ∧
        (LNode.typeName obj <:+:
          unusedFieldMessage path k (LNode.typeName obj))) := by
  refine ⟨?_, ?_, ?_⟩
  · intro obj keys path h
    simp [checkUnusedFields, h]
  · intro obj keys path h hall
    simp only [checkUnusedFields, h, Bool.false_eq_true, if_false]
    rw [List.find?_eq_none.mpr]
    · rfl
    · intro x hx
      have hm := hall x hx
      simp at hm ⊢
      exact hm
  · intro obj keys path k h hf
    refine ⟨?_, ?_, ?_, ?_⟩
    · simp only [checkUnusedFields, h, Bool.false_eq_true, if_false]
      rw [hf]
      rfl
    · exact ⟨"Error in file at ".data,
        "\nUnneeded field '".data ++ k
          ++ "' in config for object type '".data ++ LNode.typeName obj
          ++ "'\n".data,
        by simp [unusedFieldMessage]⟩
    · exact ⟨"Error in file at ".data ++ path ++ "\nUnneeded field '".data,
        "' in config for object type '".data ++ LNode.typeName obj
          ++ "'\n".data,
        by simp [unusedFieldMessage]⟩
    · exact ⟨"Error in file at ".data ++ path ++ "\nUnneeded field '".data
          ++ k ++ "' in config for object type '".data,
        "'\n".data,
        by simp [unusedFieldMessage]⟩

/-- C5 witness: the check at work on concrete objects and configs. -/
theorem C5_unused_field_witness :
    checkUnusedFields c5objNode ["name".data] "ne.yaml".data = none ∧
    (checkUnusedFields c5objNode ["bogus".data] "ne.yaml".data =
        some (unusedFieldMessage "ne.yaml".data "bogus".data
          (LNode.typeName c5objNode)) ∧
      ("ne.yaml".data <:+: unusedFieldMessage "ne.yaml".data "bogus".data
        (LNode.typeName c5objNode)) ∧
      ("bogus".data <:+: unusedFieldMessage "ne.yaml".data "bogus".data
        (LNode.typeName c5objNode)) ∧
      (LNode.typeName c5objNode <:+: unusedFieldMessage "ne.yaml".data
        "bogus".data (LNode.typeName c5objNode))) := by
  refine ⟨?_, ?_⟩
  · exact C5_unused_field_check.2.1 c5objNode ["name".data] "ne.yaml".data
      rfl (by decide)
  · exact C5_unused_field_check.2.2 c5objNode ["bogus".data] "ne.yaml".data
      "bogus".data rfl (by decide)

/-! ### C6: reference detection during field population

Embeds loader.py:404-413.  After coercion, a fresh
`TextReference()._validate(value)` is attempted: `zope.schema.Text`
raises WrongType (a ValidationError) for any non-string value, and its
`constraint` is `is_ref(value)` since `str_ok` defaults to False
(references.py:51-68), raising ConstraintNotSatisfied when false.  On
success, a field providing ITextReference gets the text assigned
directly, and any other field gets `copy.deepcopy(value)` (the same
text) stored under the shadow attribute made by prepending the marker
to the field name; both exceptions fall through to the ordinary
assignment branch at loader.py:415. -/

/-- A coerced Python config value as it reaches loader.py:404. -/
inductive PyV where
  | vnone
  | vbool : Bool → PyV
  | vint : Int → PyV
  | vstr : PyStr → PyV

/-- Python setattr on an attribute dictionary: replace the entry in
place when the key exists, else append it. -/
def pdictSet {α : Type} : List (PyStr × α) → PyStr → α → List (PyStr × α)
  | [], k, v => [(k, v)]
  | (k0, v0) :: rest, k, v =>
    if k0 = k then (k, v) :: rest else (k0, v0) :: pdictSet rest k v

/-- Outcome of `TextReference()._validate(value)` at loader.py:405-407:
true exactly when the value is a string accepted by `is_ref`. -/
def textRefValidate : PyV → Bool
  | PyV.vstr s => is_ref s
  | _ => false

/-- The reference-detection step of `apply_attributes_from_config`
(loader.py:404-413) acting on the object's attribute dictionary:
`none` means a ValidationError or ConstraintNotSatisfied was raised and
control continued at the non-reference branch (loader.py:415). -/
def applyRefDetect (fieldIsTextReference : Bool) (name : PyStr)
    (value : PyV) (atts : List (PyStr × PyV)) :
    Option (List (PyStr × PyV)) :=
  if textRefValidate value then
    if fieldIsTextReference then some (pdictSet atts name value)
    else some (pdictSet atts ("_ref_".data ++ name) value)
  else none

theorem pdictSet_get_self {α : Type} (l : List (PyStr × α)) (k : PyStr)
    (v : α) : plookup (pdictSet l k v) k = some v := by
  induction l with
  | nil => simp [pdictSet, plookup]
  | cons p rest ih =>
    obtain ⟨k0, v0⟩ := p
    by_cases h : k0 = k
    · simp [pdictSet, h, plookup]
    · simp [pdictSet, h, plookup, ih]

theorem pdictSet_get_ne {α : Type} (l : List (PyStr × α)) (k q : PyStr)
    (v : α) (h : k ≠ q) :
    plookup (pdictSet l k v) q = plookup l q := by
  induction l with
  | nil => simp [pdictSet, plookup, h]
  | cons p rest ih =>
    obtain ⟨k0, v0⟩ := p
    by_cases h0 : k0 = k
    · subst h0
      simp [pdictSet, plookup, h]
    · simp [pdictSet, h0, plookup, ih]

theorem shadow_key_ne (name : PyStr) : "_ref_".data ++ name ≠ name := by
  intro h
  have hlen := congrArg List.length h
  simp at hlen
  omega

/-- C6: during field population, a coerced value that is text matching
the reference grammar is assigned directly to the real field when the
field is declared reference-only (ITextReference); otherwise the raw
reference text is stored under the shadow deferred slot (the marker
prepended to the name, a key distinct from the real one) and the real
field is left unset, its attribute entry unchanged.  Non-text values
and text failing the grammar never take this path. -/
theorem C6_reference_detection :
    (∀ name s atts, is_ref s = true →
      applyRefDetect true name (PyV.vstr s) atts =
          some (pdictSet atts name (PyV.vstr s)) ∧
        plookup (pdictSet atts name (PyV.vstr s)) name =
          some (PyV.vstr s)) ∧
    (∀ name s atts, is_ref s = true →
      applyRefDetect false name (PyV.vstr s) atts =
          some (pdictSet atts ("_ref_".data ++ name) (PyV.vstr s)) ∧
        plookup (pdictSet atts ("_ref_".data ++ name) (PyV.vstr s))
            ("_ref_".data ++ name) = some (PyV.vstr s) ∧
        plookup (pdictSet atts ("_ref_".data ++ name) (PyV.vstr s)) name =
          plookup atts name) ∧
    (∀ b name s atts, is_ref s = false →
      applyRefDetect b name (PyV.vstr s) atts = none) ∧
    (∀ b name atts n, applyRefDetect b name (PyV.vint n) atts = none) ∧
    (∀ b name atts, applyRefDetect b name PyV.vnone atts = none) := by
  refine ⟨?_, ?_, ?_, ?_, ?_⟩
  · intro name s atts h
    exact ⟨by simp [applyRefDetect, textRefValidate, h],
      pdictSet_get_self atts name (PyV.vstr s)⟩
  · intro name s atts h
    refine ⟨by simp [applyRefDetect, textRefValidate, h], ?_, ?_⟩
    · exact pdictSet_get_self atts ("_ref_".data ++ name) (PyV.vstr s)
    · exact pdictSet_get_ne atts ("_ref_".data ++ name) name (PyV.vstr s)
        (shadow_key_ne name)
  · intro b name s atts h
    simp [applyRefDetect, textRefValidate, h]
  · intro b name atts n
    simp [applyRefDetect, textRefValidate]
  · intro b name atts
    simp [applyRefDetect, textRefValidate]

/-- C6 witness: a reference-only field takes the text directly; any
other field stores it under the shadow key only. -/
theorem C6_reference_detection_witness :
    (applyRefDetect true "sg".data
        (PyV.vstr "aim.ref netenv.demo.network.vpc".data) [] =
        some (pdictSet [] "sg".data
          (PyV.vstr "aim.ref netenv.demo.network.vpc".data)) ∧
      plookup (pdictSet [] "sg".data
          (PyV.vstr "aim.ref netenv.demo.network.vpc".data)) "sg".data =
        some (PyV.vstr "aim.ref netenv.demo.network.vpc".data)) ∧
    (applyRefDetect false "sg".data
        (PyV.vstr "aim.ref netenv.demo.network.vpc".data) [] =
        some (pdictSet [] ("_ref_".data ++ "sg".data)
          (PyV.vstr "aim.ref netenv.demo.network.vpc".data)) ∧
      plookup (pdictSet [] ("_ref_".data ++ "sg".data)
          (PyV.vstr "aim.ref netenv.demo.network.vpc".data))
          ("_ref_".data ++ "sg".data) =
        some (PyV.vstr "aim.ref netenv.demo.network.vpc".data) ∧
      plookup (pdictSet [] ("_ref_".data ++ "sg".data)
          (PyV.vstr "aim.ref netenv.demo.network.vpc".data)) "sg".data =
        plookup ([] : List (PyStr × PyV)) "sg".data) ∧
    applyRefDetect false "sg".data (PyV.vstr "vpc-123".data) [] = none := by
  refine ⟨?_, ?_, ?_⟩
  · exact C6_reference_detection.1 "sg".data
      "aim.ref netenv.demo.network.vpc".data [] (by decide)
  · exact C6_reference_detection.2.1 "sg".data
      "aim.ref netenv.demo.network.vpc".data [] (by decide)
  · exact C6_reference_detection.2.2.1 false "sg".data "vpc-123".data []
      (by decide)

/-! ### C9: output snapshot resolution for pending stacks

Embeds `resolve_ref_outputs` (references.py:175-199) and the tail of
`resolve_ref` (references.py:246-253).  The snapshot file for
`ref.parts[0]` is loaded (missing file: return None), then the loop
walks ALL of `ref.parts` (parts[0] included): a part missing from the
current mapping breaks out and returns None; otherwise the child node
is entered, and when its key list is exactly the single sentinel key
the recorded value is returned.  Entering a non-mapping child crashes
on `node.keys()` with AttributeError, as does a non-mapping top-level
document.  At the call site the snapshot is consulted only when the
project has a home entry, the resolved value is a Stack, and
`is_stack_cached()` holds; a None result (no document, no leaf, or a
null-valued sentinel leaf, which YAML loads as Python None) leaves the
pending Stack to be returned unchanged. -/

/-- A YAML value as produced by the safe loader at
references.py:186-189. -/
inductive YVal where
  | ynull
  | ybool : Bool → YVal
  | yint : Int → YVal
  | ystr : PyStr → YVal
  | ymap : List (PyStr × YVal) → YVal

/-- YAML null loads as Python None, so a null recorded value returned
at references.py:197 is indistinguishable from the None returned when
no leaf is found. -/
def yToPy : Option YVal → Option YVal
  | some YVal.ynull => none
  | o => o

/-- The loop of `resolve_ref_outputs` (references.py:191-199).
`Except.error` models an uncaught AttributeError raised by calling
`keys()` on a non-mapping value. -/
def outputsWalk : List PyStr → YVal → Except Unit (Option YVal)
  | [], _ => Except.ok none
  | part :: rest, d =>
    match d with
    | YVal.ymap entries =>
      match plookup entries part with
      | none => Except.ok none
      | some node =>
        match node with
        | YVal.ymap nentries =>
          if nentries.length = 1 ∧
              "__name__".data ∈ nentries.map Prod.fst then
            Except.ok (yToPy (plookup nentries "__name__".data))
          else outputsWalk rest (YVal.ymap nentries)
        | _ => Except.error ()
    | _ => Except.error ()

/-- The persisted output snapshots: one YAML document per top-level
key, living under the Outputs folder of the project home. -/
structure OutStore where
  docs : List (PyStr × YVal)

/-- `resolve_ref_outputs` (references.py:175-199): a missing snapshot
file returns None, an empty parts list raises IndexError on
`ref.parts[0]`, else the document is walked along all the parts. -/
def resolve_ref_outputs (parts : List PyStr) (store : OutStore) :
    Except Unit (Option YVal) :=
  match parts with
  | [] => Except.error ()
  | key :: _ =>
    match plookup store.docs key with
    | none => Except.ok none
    | some doc => outputsWalk parts doc

/-- A `Stack` value as seen at references.py:248-249: all that matters
is `is_stack_cached()`. -/
structure StackMarker where
  isCached : Bool

/-- The value computed by the dispatch part of `resolve_ref`: either a
plain value or a pending `Stack` marker. -/
inductive RefOutcome where
  | value : YVal → RefOutcome
  | pending : StackMarker → RefOutcome

/-- Tail of `resolve_ref` (references.py:246-253), applied to the
already-computed `ref_value`: the outputs snapshot is consulted only
when the project has a home entry, the value is a Stack, and that
stack is cached; a non-None snapshot value is returned instead,
otherwise the pending value is returned unchanged. -/
def resolve_ref_tail (home : Option OutStore) (parts : List PyStr)
    (ref_value : RefOutcome) : Except Unit RefOutcome :=
  match home, ref_value with
  | some store, RefOutcome.pending st =>
    if st.isCached then
      match resolve_ref_outputs parts store with
      | Except.error e => Except.error e
      | Except.ok (some v) => Except.ok (RefOutcome.value v)
      | Except.ok none => Except.ok (RefOutcome.pending st)
    else Except.ok (RefOutcome.pending st)
  | _, _ => Except.ok ref_value

/-- Snapshot fixture holding a plain scalar where the walk expects a
mapping: the document for netenv nests demo to the bare int 5 instead
of a sentinel-keyed mapping. -/
def c9badStore : OutStore :=
  OutStore.mk [("netenv".data,
    YVal.ymap [("netenv".data,
      YVal.ymap [("demo".data, YVal.yint 5)])])]

/-- C9: when the snapshot contains a non-mapping value on the walked
path that is not wrapped in a sentinel-keyed mapping, no such leaf
exists, yet the resolver does not return the pending marker unchanged:
it crashes with AttributeError on `node.keys()`, so the no-leaf outcome
is not always a normal non-error one. -/
theorem C9_counterexample :
    resolve_ref_outputs ["netenv".data, "demo".data] c9badStore =
      Except.error () ∧
    resolve_ref_tail (some c9badStore) ["netenv".data, "demo".data]
      (RefOutcome.pending (StackMarker.mk true)) = Except.error () := by
  exact ⟨rfl, rfl⟩

/-- C9 (amended): the snapshot is consulted only for a cached pending
Stack in a project with a home entry — a plain value, an uncached
stack, or a home-less project leaves the result untouched.  A missing
snapshot document returns the pending marker unchanged.  The walk runs
over all reference parts, parts[0] included: a part missing from the
current mapping ends it with no value; a child that is a mapping whose
only key is the sentinel ends it returning the recorded value (a null
recording collapses to Python None, so the pending marker is returned);
any other mapping child is entered and the walk continues.  A recorded
value found makes the resolver return it in place of the marker. -/
theorem C9_output_snapshot :
    (∀ parts st, resolve_ref_tail none parts (RefOutcome.pending st) =
      Except.ok (RefOutcome.pending st)) ∧
    (∀ store parts st, StackMarker.isCached st = false →
      resolve_ref_tail (some store) parts (RefOutcome.pending st) =
        Except.ok (RefOutcome.pending st)) ∧
    (∀ store parts v, resolve_ref_tail (some store) parts
        (RefOutcome.value v) = Except.ok (RefOutcome.value v)) ∧
    (∀ store key rest st, plookup (OutStore.docs store) key = none →
      resolve_ref_outputs (key :: rest) store = Except.ok none ∧
      (StackMarker.isCached st = true →
        resolve_ref_tail (some store) (key :: rest)
          (RefOutcome.pending st) =
          Except.ok (RefOutcome.pending st))) ∧
    (∀ entries part rest, plookup entries part = none →
      outputsWalk (part :: rest) (YVal.ymap entries) = Except.ok none) ∧
    (∀ entries part rest v,
      plookup entries part = some (YVal.ymap [("__name__".data, v)]) →
      outputsWalk (part :: rest) (YVal.ymap entries) =
        Except.ok (yToPy (some v))) ∧
    (∀ entries part rest nentries,
      plookup entries part = some (YVal.ymap nentries) →
      ¬(nentries.length = 1 ∧
          "__name__".data ∈ nentries.map Prod.fst) →
      outputsWalk (part :: rest) (YVal.ymap entries) =
        outputsWalk rest (YVal.ymap nentries)) ∧
    (∀ store parts st v, StackMarker.isCached st = true →
      resolve_ref_outputs parts store = Except.ok (some v) →
      resolve_ref_tail (some store) parts (RefOutcome.pending st) =
        Except.ok (RefOutcome.value v)) ∧
    (∀ store parts st, StackMarker.isCached st = true →
      resolve_ref_outputs parts store = Except.ok none →
      resolve_ref_tail (some store) parts (RefOutcome.pending st) =
        Except.ok (RefOutcome.pending st)) ∧
    yToPy (some YVal.ynull) = none := by
  refine ⟨?_, ?_, ?_, ?_, ?_, ?_, ?_, ?_, ?_, rfl⟩
  · intro parts st
    rfl
  · intro store parts st h
    simp [resolve_ref_tail, h]
  · intro store parts v
    rfl
  · intro store key rest st h
    have hout : resolve_ref_outputs (key :: rest) store = Except.ok none := by
      simp [resolve_ref_outputs, h]
    refine ⟨hout, ?_⟩
    intro hc
    simp [resolve_ref_tail, hc, hout]
  · intro entries part rest h
    simp [outputsWalk, h]
  · intro entries part rest v h
    simp only [outputsWalk, h]
    rw [if_pos (by simp)]
    simp [plookup]
  · intro entries part rest nentries h hnl
    simp only [outputsWalk, h]
    rw [if_neg hnl]
  · intro store parts st v hc h
    simp [resolve_ref_tail, hc, h]
  · intro store parts st hc h
    simp [resolve_ref_tail, hc, h]

/-- C9 witness: a recorded value is substituted for the cached pending
stack, and a missing document leaves it pending. -/
theorem C9_output_snapshot_witness :
    resolve_ref_tail (some (OutStore.mk [("netenv".data,
        YVal.ymap [("netenv".data,
          YVal.ymap [("vpc".data,
            YVal.ymap [("__name__".data, YVal.ystr "vpc-123".data)])])])]))
      ["netenv".data, "vpc".data]
      (RefOutcome.pending (StackMarker.mk true)) =
      Except.ok (RefOutcome.value (YVal.ystr "vpc-123".data)) ∧
    resolve_ref_tail (some (OutStore.mk []))
      ["netenv".data, "vpc".data]
      (RefOutcome.pending (StackMarker.mk true)) =
      Except.ok (RefOutcome.pending (StackMarker.mk true)) := by
  refine ⟨?_, ?_⟩
  · exact C9_output_snapshot.2.2.2.2.2.2.2.1
      (OutStore.mk [("netenv".data,
        YVal.ymap [("netenv".data,
          YVal.ymap [("vpc".data,
            YVal.ymap [("__name__".data, YVal.ystr "vpc-123".data)])])])])
      ["netenv".data, "vpc".data] (StackMarker.mk true)
      (YVal.ystr "vpc-123".data) rfl rfl
  · exact ((C9_output_snapshot.2.2.2.1 (OutStore.mk []) "netenv".data
      ["vpc".data] (StackMarker.mk true) rfl).2 rfl)

end AimModels
